import Mathlib

/-
Verification of the program-options resolver (elektraGetOpts and its helper
functions).  The C source is embedded shallowly: strings are lists of
characters, a configuration key is a record of a segmented name, a string
value and a metadata association list, and a key set is a list of keys.
External collaborators of the resolver (the key-set container operations and
the array-index naming convention) are modelled from the specification of the
host library; every function of the resolver itself is translated directly
from the C source.
-/

namespace Elektra

/-- Strings are lists of characters. -/
abbrev Str := List Char

/-- Convert a Lean string literal to the character-list representation. -/
def str (s : String) : Str := s.toList

/-- Configuration key: segmented name (first segment is the namespace, the
empty segment standing for a cascading name), string value, metadata
association list mapping metadata names to string values. -/
structure Key where
  name : List Str
  value : Str
  meta : List (Str × Str)
deriving DecidableEq, Repr

/-- Key with empty name, value and metadata (used as a default error key). -/
def emptyKey : Key := ⟨[], [], []⟩

/-- Fresh key with the given name and no value or metadata (keyNew). -/
def keyNew (n : List Str) : Key := ⟨n, [], []⟩

/-- A key set is a list of keys; lookup finds the first key with a name. -/
abbrev KeySet := List Key

/-- Modelled from the spec: look up a key by its (segmented) absolute name. -/
def ksLookupByName (ks : KeySet) (n : List Str) : Option Key :=
  ks.find? (fun k => k.name = n)

/-- Render a segmented name into its textual form with `/` separators; a
cascading name (leading empty segment) renders with a leading slash. -/
def keyNameStr (n : List Str) : Str :=
  match n with
  | [] => []
  | s :: rest => s ++ (rest.map (fun t => '/' :: t)).flatten

/-- Look up a key whose rendered name equals the given string. -/
def ksLookupByStr (ks : KeySet) (s : Str) : Option Key :=
  ks.find? (fun k => keyNameStr k.name = s)

/-- Modelled from the spec: append a key to a key set, replacing the existing
key of the same name (the first such key) if there is one. -/
def ksAppendKey : KeySet → Key → KeySet
  | [], k => [k]
  | k2 :: rest, k => if k2.name = k.name then k :: rest else k2 :: ksAppendKey rest k

/-- Read a metadata value (keyGetMeta); `none` when the metadata is absent. -/
def keyGetMeta (k : Key) (m : Str) : Option Str :=
  (k.meta.find? (fun p => p.1 = m)).map Prod.snd

/-- The resolver's helper keyGetMetaString: absent and empty metadata values
are both reported as `none`. -/
def keyGetMetaString (k : Key) (m : Str) : Option Str :=
  match keyGetMeta k m with
  | none => none
  | some v => if v = [] then none else some v

/-- Set an entry of a metadata association list, replacing an existing one. -/
def metaSet : List (Str × Str) → Str → Str → List (Str × Str)
  | [], m, v => [(m, v)]
  | p :: rest, m, v => if p.1 = m then (m, v) :: rest else p :: metaSet rest m v

/-- Set a metadata value on a key (keySetMeta). -/
def keySetMeta (k : Key) (m v : Str) : Key := { k with meta := metaSet k.meta m v }

/-- Set the string value of a key (keySetString). -/
def keySetString (k : Key) (v : Str) : Key := { k with value := v }

/-- Base name of a key: its last name segment (keyBaseName). -/
def keyBaseName (k : Key) : Str := k.name.getLast?.getD []

/-- Decimal digit character for a value below ten. -/
def digitChar : Nat → Char
  | 0 => '0'
  | 1 => '1'
  | 2 => '2'
  | 3 => '3'
  | 4 => '4'
  | 5 => '5'
  | 6 => '6'
  | 7 => '7'
  | 8 => '8'
  | _ => '9'

/-- Numeric value of a decimal digit character. -/
def digitVal : Char → Nat
  | '0' => 0
  | '1' => 1
  | '2' => 2
  | '3' => 3
  | '4' => 4
  | '5' => 5
  | '6' => 6
  | '7' => 7
  | '8' => 8
  | '9' => 9
  | _ => 0

/-- Decimal digit string of a natural number, with explicit fuel so that the
definition is structurally recursive. -/
def natDigitsAux : Nat → Nat → Str
  | 0, _ => []
  | f + 1, n => if n < 10 then [digitChar n] else natDigitsAux f (n / 10) ++ [digitChar (n % 10)]

/-- Decimal digit string of a natural number. -/
def natDigits (n : Nat) : Str := natDigitsAux (n + 1) n

/-- Parse a decimal digit string into a natural number. -/
def parseNatDigits (s : Str) : Nat := s.foldl (fun a c => a * 10 + digitVal c) 0

/-- Modelled from the spec: the array-element label for index `n`
(`#0`, `#1`, ...). -/
def arrayLabel (n : Nat) : Str := '#' :: natDigits n

/-- Parse an array-element label back into its index. -/
def parseLabel : Str → Option Nat
  | '#' :: ds => if ds ≠ [] ∧ ds.all Char.isDigit then some (parseNatDigits ds) else none
  | _ => none

/-- Modelled from the spec: increment an array name's current index; the bare
array marker `#` increments to `#0`. -/
def arrayInc (l : Str) : Str :=
  match l with
  | ['#'] => arrayLabel 0
  | '#' :: ds => '#' :: natDigits (parseNatDigits ds + 1)
  | _ => l

/-- Modelled from the spec: append a value to a metadata array on a key.  The
array parent metadata holds the last index label and each element lives under
`name/#i`. -/
def elektraMetaArrayAdd (k : Key) (m v : Str) : Key :=
  match keyGetMeta k m with
  | none => keySetMeta (keySetMeta k m (arrayLabel 0)) (m ++ '/' :: arrayLabel 0) v
  | some last =>
    let nl := arrayInc last
    keySetMeta (keySetMeta k m nl) (m ++ '/' :: nl) v

/-- Modelled from the spec: read a metadata array from a key as the list of
its (element name, element value) pairs in index order; `none` when the array
parent metadata is absent. -/
def elektraMetaArrayToKS (k : Key) (m : Str) : Option (List (Str × Str)) :=
  match keyGetMeta k m with
  | none => none
  | some last =>
    match parseLabel last with
    | none => some []
    | some n =>
      some ((List.range (n + 1)).filterMap (fun i =>
        (keyGetMeta k (m ++ '/' :: arrayLabel i)).map (fun v => (m ++ '/' :: arrayLabel i, v))))

/-- The resolver's ksMetaGetSingleOrArray: a scalar metadata value yields a
one-element list, an array-parent value (starting with `#` and with an
existing element at its index) yields the whole metadata array. -/
def ksMetaGetSingleOrArray (k : Key) (m : Str) : Option (List (Str × Str)) :=
  match keyGetMeta k m with
  | none => none
  | some value =>
    if value.head? ≠ some '#' then some [(m, value)]
    else
      match keyGetMeta k (m ++ '/' :: value) with
      | none => some [(m, value)]
      | some _ => elektraMetaArrayToKS k m

/-- Error classes reported by the resolver. -/
inductive ErrKind
  | illegalSpec
  | illegalUse
  | unknownOption
deriving DecidableEq, Repr

deriving instance DecidableEq for Except

/-- Option data read from one option slot of a spec key (struct OptionData). -/
structure OptionData where
  specKey : Key
  metaKey : Str
  hasArg : Str
  kind : Str
  flagValue : Str
  argName : Option Str
  hidden : Bool
deriving DecidableEq, Repr

/-- Compiler state (struct Specification): the option table, the plan list of
keys with bindings, and the two help-renderer booleans. -/
structure Spec where
  options : KeySet
  keys : KeySet
  hasOpts : Bool
  hasArgs : Bool
deriving DecidableEq, Repr

/-- Translation of readOptionData: read hasarg, argument help name, flag
value and the hidden marker for the option slot named by `metaKey`. -/
def readOptionData (key : Key) (metaKey : Str) : Except ErrKind OptionData :=
  let hasArg := (keyGetMetaString key (metaKey ++ str "/arg")).getD (str "required")
  let argName := keyGetMetaString key (metaKey ++ str "/arg/help")
  let nohelp := keyGetMetaString key (metaKey ++ str "/nohelp") = some (str "1")
  let kind := if keyBaseName key = str "#" then str "array" else str "single"
  match keyGetMetaString key (metaKey ++ str "/flagvalue") with
  | none =>
    .ok ⟨key, metaKey, hasArg, kind, str "1", argName, nohelp⟩
  | some fv =>
    if hasArg ≠ str "none" ∧ hasArg ≠ str "optional" then .error .illegalSpec
    else .ok ⟨key, metaKey, hasArg, kind, fv, argName, nohelp⟩

/-- Name of the compiled short-option entry for character `c`. -/
def shortOptName (c : Char) : List Str := [[], str "short", [c]]

/-- Name of the compiled long-option entry for a long option name. -/
def longOptName (n : Str) : List Str := [[], str "long", n]

/-- Translation of processShortOptSpec: validate the short option character,
reject duplicates, insert the compiled entry and record the back reference
and help-line fragment. -/
def processShortOptSpec (spec : Spec) (od : OptionData) (keyWithOpt : Option Key)
    (shortOptLine : Str) : Except ErrKind (Spec × Option Key × Str) :=
  match keyGetMetaString od.specKey od.metaKey with
  | none => .ok (spec, keyWithOpt, shortOptLine)
  | some shortStr =>
    match shortStr with
    | [] => .ok (spec, keyWithOpt, shortOptLine)
    | c :: _ =>
      if c = '-' then .error .illegalSpec
      else if c = 'h' then .error .illegalSpec
      else if (ksLookupByName spec.options (shortOptName c)).isSome then .error .illegalSpec
      else
        let shortOptSpec : Key :=
          ⟨shortOptName c, [],
            [(str "key", keyNameStr od.specKey.name), (str "hasarg", od.hasArg),
             (str "kind", od.kind), (str "flagvalue", od.flagValue)]⟩
        let spec1 := { spec with options := ksAppendKey spec.options shortOptSpec }
        let kw := keyWithOpt.getD (keyNew od.specKey.name)
        let kw := elektraMetaArrayAdd kw (str "opt") (keyNameStr (shortOptName c))
        let line := if od.hidden then shortOptLine
                    else shortOptLine ++ '-' :: c :: str ", "
        let spec2 := if od.hidden then spec1 else { spec1 with hasOpts := true }
        .ok (spec2, some kw, line)

/-- Translation of processLongOptSpec: validate the long option name, reject
duplicates, insert the compiled entry and record the back reference and
help-line fragment. -/
def processLongOptSpec (spec : Spec) (od : OptionData) (keyWithOpt : Option Key)
    (longOptLine : Str) : Except ErrKind (Spec × Option Key × Str) :=
  match keyGetMetaString od.specKey (od.metaKey ++ str "/long") with
  | none => .ok (spec, keyWithOpt, longOptLine)
  | some longOpt =>
    if longOpt = str "help" then .error .illegalSpec
    else if (ksLookupByName spec.options (longOptName longOpt)).isSome then .error .illegalSpec
    else
      let longOptSpec : Key :=
        ⟨longOptName longOpt, [],
          [(str "key", keyNameStr od.specKey.name), (str "hasarg", od.hasArg),
           (str "kind", od.kind), (str "flagvalue", od.flagValue)]⟩
      let spec1 := { spec with options := ksAppendKey spec.options longOptSpec }
      let kw := keyWithOpt.getD (keyNew od.specKey.name)
      let kw := elektraMetaArrayAdd kw (str "opt") (keyNameStr (longOptName longOpt))
      let argString :=
        if od.hasArg = str "required" then
          match od.argName with
          | none => str "=ARG"
          | some a => '=' :: a
        else if od.hasArg = str "optional" then
          match od.argName with
          | none => str "=[ARG]"
          | some a => '=' :: '[' :: a ++ [']']
        else []
      let line := if od.hidden then longOptLine
                  else longOptLine ++ str "--" ++ longOpt ++ argString ++ str ", "
      let spec2 := if od.hidden then spec1 else { spec1 with hasOpts := true }
      .ok (spec2, some kw, line)

/-- The option-slot metadata names iterated by processOptions for one spec
key; `none` when the key declares no command-line option at all.  A scalar
`opt` (or the synthesised slot for a key with only `opt/long`) yields a
single slot named `opt`; an `opt` array yields the slot names `opt/#i`. -/
def optPlaces (specKey : Key) : Option (List Str) :=
  match ksMetaGetSingleOrArray specKey (str "opt") with
  | some l => some (l.map Prod.fst)
  | none =>
    if (keyGetMetaString specKey (str "opt/long")).isSome then some [str "opt"] else none

/-- The loop of processOptions over the option slots of one spec key. -/
def processOptionsLoop (spec : Spec) (specKey : Key) (kw : Option Key)
    (sLine lLine : Str) : List Str → Except ErrKind (Spec × Option Key × Str × Str)
  | [] => .ok (spec, kw, sLine, lLine)
  | m :: rest =>
    match readOptionData specKey m with
    | .error e => .error e
    | .ok od =>
      match processShortOptSpec spec od kw sLine with
      | .error e => .error e
      | .ok (spec1, kw1, sLine1) =>
        match processLongOptSpec spec1 od kw1 lLine with
        | .error e => .error e
        | .ok (spec2, kw2, lLine2) => processOptionsLoop spec2 specKey kw2 sLine1 lLine2 rest

/-- Trim the trailing separator of a help-line fragment (the source cuts the
final two characters whenever the fragment is longer than two). -/
def trimSep (l : Str) : Str := if l.length > 2 then l.dropLast.dropLast else l

/-- Assembly of the help line of one plan entry from the accumulated short
and long fragments; the entry is left untouched when both are empty. -/
def attachOptHelp (kwk : Key) (sLine lLine help : Str) : Key :=
  let sLine1 := trimSep sLine
  let lLine1 := trimSep lLine
  let part := sLine1 ++ (if lLine1.length > 0 then str ", " else []) ++ lLine1
  if part.length > 0 then
    let optsLine :=
      if part.length < 30 then
        str "  " ++ part ++ List.replicate (28 - part.length) ' ' ++ help
      else
        str "  " ++ part ++ '\n' :: str "  " ++ List.replicate 30 ' ' ++ help
    keySetMeta kwk (str "opt/help") optsLine
  else kwk

/-- Translation of processOptions: process every option slot of the key and
assemble the help line stored on the plan entry. -/
def processOptions (spec : Spec) (specKey : Key) (keyWithOpt : Option Key) :
    Except ErrKind (Spec × Option Key) :=
  let help := (keyGetMetaString specKey (str "opt/help")).getD
      ((keyGetMetaString specKey (str "description")).getD [])
  match optPlaces specKey with
  | none => .ok (spec, keyWithOpt)
  | some places =>
    match processOptionsLoop spec specKey keyWithOpt [] [] places with
    | .error e => .error e
    | .ok (spec1, kw, sLine, lLine) =>
      match kw with
      | none => .ok (spec1, none)
      | some kwk => .ok (spec1, some (attachOptHelp kwk sLine lLine help))

/-- The loop of processEnvVars over the environment-variable names declared
on one spec key. -/
def processEnvVarsLoop (used : KeySet) (specKey : Key) (kw : Option Key) :
    List (Str × Str) → Except ErrKind (KeySet × Option Key)
  | [] => .ok (used, kw)
  | (_, envVar) :: rest =>
    let envVarKey : Key := ⟨[[], envVar], [], [(str "key", keyNameStr specKey.name)]⟩
    if (ksLookupByName used envVarKey.name).isSome then .error .illegalSpec
    else
      let used1 := ksAppendKey used envVarKey
      let kwk := kw.getD (keyNew specKey.name)
      let kwk1 := elektraMetaArrayAdd kwk (str "env") (keyNameStr envVarKey.name)
      processEnvVarsLoop used1 specKey (some kwk1) rest

/-- Translation of processEnvVars: record every declared environment variable
in the used-variable set, rejecting names already bound to another key. -/
def processEnvVars (used : KeySet) (specKey : Key) (kw : Option Key) :
    Except ErrKind (KeySet × Option Key) :=
  match ksMetaGetSingleOrArray specKey (str "env") with
  | none => .ok (used, kw)
  | some envs => processEnvVarsLoop used specKey kw envs

/-- The args pass of processSpec for one spec key: a key carrying
`args = remaining` must be an array key and gets the flag recorded on its
plan entry. -/
def processArgsPass (spec1 : Spec) (cur : Key) (kw : Option Key) :
    Except ErrKind (Spec × Option Key) :=
  if keyGetMetaString cur (str "args") = some (str "remaining") then
    if keyBaseName cur ≠ str "#" then .error .illegalSpec
    else
      let kwk := kw.getD (keyNew cur.name)
      .ok ({ spec1 with hasArgs := true }, some (keySetMeta kwk (str "args") (str "remaining")))
  else .ok (spec1, kw)

/-- Processing of one spec key inside processSpec: option pass, env pass and
args pass, then appending the plan entry if any binding was found. -/
def processSpecKey (spec : Spec) (used : KeySet) (cur : Key) :
    Except ErrKind (Spec × KeySet) :=
  match processOptions spec cur none with
  | .error e => .error e
  | .ok (spec1, kw) =>
    match processEnvVars used cur kw with
    | .error e => .error e
    | .ok (used1, kw1) =>
      match processArgsPass spec1 cur kw1 with
      | .error e => .error e
      | .ok (spec2, kw2) =>
        match kw2 with
        | some kwk => .ok ({ spec2 with keys := ksAppendKey spec2.keys kwk }, used1)
        | none => .ok (spec2, used1)

/-- The loop of processSpec over all keys of the specification key set,
skipping keys outside the spec namespace. -/
def processSpecLoop (spec : Spec) (used : KeySet) : List Key → Except ErrKind Spec
  | [] => .ok spec
  | cur :: rest =>
    if cur.name.head? = some (str "spec") then
      match processSpecKey spec used cur with
      | .error e => .error e
      | .ok (spec1, used1) => processSpecLoop spec1 used1 rest
    else processSpecLoop spec used rest

/-- The preregistered compiled entry for the help short option `-h`. -/
def helpShortKey : Key :=
  ⟨shortOptName 'h', [],
    [(str "hasarg", str "none"), (str "kind", str "single"),
     (str "flagvalue", str "1"), (str "longopt", str "/long/help")]⟩

/-- The preregistered compiled entry for the help long option `--help`. -/
def helpLongKey : Key :=
  ⟨longOptName (str "help"), [],
    [(str "hasarg", str "none"), (str "kind", str "single"), (str "flagvalue", str "1")]⟩

/-- Translation of processSpec: seed the option table with the help entries
and process every specification key. -/
def processSpec (ks : KeySet) : Except ErrKind Spec :=
  processSpecLoop ⟨[helpShortKey, helpLongKey], [], false, false⟩ [] ks

/-- Translation of parseEnvp: split each `NAME=VALUE` string at the first
`=` and build the environment lookup table; a later duplicate name wins. -/
def parseEnvp (envp : List Str) : KeySet :=
  envp.foldl
    (fun ks s =>
      ksAppendKey ks
        ⟨[[], s.takeWhile (fun c => c ≠ '=')], (s.dropWhile (fun c => c ≠ '=')).tail, []⟩)
    []

/-- Translation of setOption: a repeatable (array-kind) option accumulates
its occurrence values in the `values` metadata array, a single option stores
the last value as the occurrence key's value. -/
def setOption (option : Key) (value : Str) (repeated : Bool) : Key :=
  if repeated then elektraMetaArrayAdd option (str "values") value
  else keySetString option value

/-- Translation of parseShortOptions, walking one short-option cluster.  The
returned boolean records whether the next argv token was consumed as an
option argument. -/
def parseShortOptions (optionsSpec : KeySet) :
    Str → List Str → KeySet → Except ErrKind (KeySet × Bool)
  | [], _, options => .ok (options, false)
  | c :: cs, rest, options =>
    match ksLookupByName optionsSpec (shortOptName c) with
    | none => .error .unknownOption
    | some optSpec =>
      let hasArg := (keyGetMetaString optSpec (str "hasarg")).getD []
      let kind := (keyGetMetaString optSpec (str "kind")).getD []
      let flagValue := (keyGetMetaString optSpec (str "flagvalue")).getD []
      let repeated := kind = str "array"
      let prior := ksLookupByName options (shortOptName c)
      if prior.isSome ∧ ¬repeated then .error .illegalUse
      else
        let option := prior.getD
          ⟨shortOptName c, [], [(str "key", (keyGetMetaString optSpec (str "key")).getD [])]⟩
        if hasArg = str "required" then
          if cs = [] then
            match rest with
            | [] => .error .illegalUse
            | v :: _ =>
              let option1 := keySetMeta (setOption option v repeated) (str "short") (str "1")
              .ok (ksAppendKey options option1, true)
          else
            let option1 := keySetMeta (setOption option cs repeated) (str "short") (str "1")
            .ok (ksAppendKey options option1, false)
        else
          let option1 := keySetMeta (setOption option flagValue repeated) (str "short") (str "1")
          parseShortOptions optionsSpec cs rest (ksAppendKey options option1)

/-- Translation of parseLongOption for one `--name[=value]` token.  The
returned boolean records whether the next argv token was consumed as the
option argument. -/
def parseLongOption (optionsSpec : KeySet) (options : KeySet) (tok : Str)
    (rest : List Str) : Except ErrKind (KeySet × Bool) :=
  let opt := tok.drop 2
  let name := opt.takeWhile (fun c => c ≠ '=')
  let attached : Option Str :=
    if opt.any (fun c => c = '=') then some ((opt.dropWhile (fun c => c ≠ '=')).tail) else none
  match ksLookupByName optionsSpec (longOptName name) with
  | none => .error .unknownOption
  | some optSpec =>
    let hasArg := (keyGetMetaString optSpec (str "hasarg")).getD []
    let kind := (keyGetMetaString optSpec (str "kind")).getD []
    let flagValue := keyGetMetaString optSpec (str "flagvalue")
    let repeated := kind = str "array"
    let prior := ksLookupByName options (longOptName name)
    let shadowed : Bool :=
      match prior with
      | some o => repeated && (keyGetMetaString o (str "short")).isSome
      | none => false
    if prior.isSome ∧ ¬repeated then .error .illegalUse
    else if shadowed then .ok (options, false)
    else
      let option := prior.getD
        ⟨longOptName name, [], [(str "key", (keyGetMetaString optSpec (str "key")).getD [])]⟩
      if hasArg = str "required" then
        match attached with
        | some a => .ok (ksAppendKey options (setOption option a repeated), false)
        | none =>
          match rest with
          | [] => .error .illegalUse
          | v :: _ => .ok (ksAppendKey options (setOption option v repeated), true)
      else if hasArg = str "optional" then
        match attached with
        | some a => .ok (ksAppendKey options (setOption option a repeated), false)
        | none =>
          match flagValue with
          | some fv => .ok (ksAppendKey options (setOption option fv repeated), false)
          | none => .ok (ksAppendKey options option, false)
      else
        if attached.isSome then .error .illegalUse
        else .ok (ksAppendKey options (setOption option (flagValue.getD []) repeated), false)

/-- Name of the indexed positional-argument key `/args/#n`. -/
def argEntryName (n : Nat) : List Str := [[], str "args", arrayLabel n]

/-- Value of the `/args` parent key after `cnt` positionals were collected:
the bare `#` marker when none, the last element label otherwise. -/
def argParentLabel (cnt : Nat) : Str := if cnt = 0 then ['#'] else arrayLabel (cnt - 1)

/-- The main loop of parseArgs over the argv tokens.  The fuel argument makes
the recursion structural; one unit is spent per processed token, so fuel
equal to the token count always suffices.  Returns the occurrence set, the
number of collected positionals and the tokens left after `--` or a
POSIX-mode stop. -/
def parseArgsLoop (optionsSpec : KeySet) (posixly : Bool) :
    Nat → List Str → KeySet → Nat → Except ErrKind (KeySet × Nat × List Str)
  | 0, toks, options, cnt => .ok (options, cnt, toks)
  | _ + 1, [], options, cnt => .ok (options, cnt, [])
  | fuel + 1, tok :: rest, options, cnt =>
    match tok with
    | '-' :: '-' :: [] => .ok (options, cnt, rest)
    | '-' :: '-' :: _ =>
      (match parseLongOption optionsSpec options tok rest with
       | .error e => .error e
       | .ok (options1, consumed) =>
         parseArgsLoop optionsSpec posixly fuel (if consumed then rest.tail else rest) options1 cnt)
    | '-' :: cs =>
      (match parseShortOptions optionsSpec cs rest options with
       | .error e => .error e
       | .ok (options1, consumed) =>
         parseArgsLoop optionsSpec posixly fuel (if consumed then rest.tail else rest) options1 cnt)
    | _ =>
      if posixly then .ok (options, cnt, tok :: rest)
      else
        parseArgsLoop optionsSpec posixly fuel rest
          (ksAppendKey options ⟨argEntryName cnt, tok, []⟩) (cnt + 1)

/-- The tail loop of parseArgs collecting every remaining token as a
positional argument. -/
def collectRestArgs : List Str → KeySet → Nat → KeySet × Nat
  | [], options, cnt => (options, cnt)
  | v :: rest, options, cnt =>
    collectRestArgs rest (ksAppendKey options ⟨argEntryName cnt, v, []⟩) (cnt + 1)

/-- Translation of parseArgs: scan argv beyond the program name, then collect
the remainder after `--` (or after the first positional in POSIX mode) and
append the `/args` parent key. -/
def parseArgs (optionsSpec : KeySet) (argv : List Str) (errorKey : Key) :
    Except ErrKind KeySet :=
  let posixly := keyGetMetaString errorKey (str "posixly") = some (str "1")
  let toks := argv.drop 1
  match parseArgsLoop optionsSpec posixly toks.length toks [] 0 with
  | .error e => .error e
  | .ok (options, cnt, leftover) =>
    let (options1, cnt1) := collectRestArgs leftover options cnt
    .ok (ksAppendKey options1 ⟨[[], str "args"], argParentLabel cnt1, []⟩)

/-- The platform separator for PATH-style environment values (the non-Windows
build of the source). -/
def SEP_ENV_VALUE : Char := ':'

/-- Split a string at every occurrence of the separator; `n` separators yield
`n + 1` segments, preserving empty segments. -/
def splitSep (sep : Char) : Str → List Str
  | [] => [[]]
  | c :: rest =>
    if c = sep then [] :: splitSep sep rest
    else
      match splitSep sep rest with
      | [] => [[c]]
      | seg :: segs => (c :: seg) :: segs

/-- Translation of splitEnvValue for an arbitrary separator: a value without
the separator is kept as the key's string value, otherwise the value is
cleared and every segment is appended to the `values` metadata array. -/
def splitEnvValueSep (sep : Char) (envKey : Key) : Key :=
  if envKey.value.any (fun c => c = sep) then
    (splitSep sep envKey.value).foldl
      (fun k seg => elektraMetaArrayAdd k (str "values") seg) ⟨envKey.name, [], []⟩
  else ⟨envKey.name, envKey.value, []⟩

/-- Translation of splitEnvValue at the build's platform separator; `none` in
is passed through for an absent environment variable. -/
def splitEnvValue (envKey : Option Key) : Option Key :=
  envKey.map (splitEnvValueSep SEP_ENV_VALUE)

/-- The proc-namespace name derived from a spec key name (the namespace
segment is replaced by `proc`). -/
def procNameOf (specName : List Str) : List Str := str "proc" :: specName.tail

/-- The proc-namespace name addProcKey looks up and writes for a plan entry:
for an array entry the trailing `#` is removed. -/
def procLookupName (specName : List Str) : List Str :=
  let p := procNameOf specName
  if p.getLast? = some (str "#") then p.dropLast else p

/-- The element-writing loop shared by addProcKey and writeArgsValues: for
each value, increment the insert key's array index and append a duplicate
carrying the value; returns the new key set and the final index label. -/
def arrayWriteLoop (ks : KeySet) (base : List Str) (lab : Str) :
    List Str → KeySet × Str
  | [] => (ks, lab)
  | v :: vs =>
    let lab1 := arrayInc lab
    arrayWriteLoop (ksAppendKey ks ⟨base ++ [lab1], v, []⟩) base lab1 vs

/-- Translation of addProcKey.  Returns the C result code together with the
(possibly extended) key set: 0 when a proc key was written, -1 when the
destination already holds a non-empty value, 1 when nothing was written. -/
def addProcKey (ks : KeySet) (key : Key) (valueKey : Option Key) : Int × KeySet :=
  match valueKey with
  | none => (1, ks)
  | some vk =>
    let procName := procNameOf key.name
    let isArrayKey := procName.getLast? = some (str "#")
    let lookupName := if isArrayKey then procName.dropLast else procName
    let blocked : Bool :=
      match ksLookupByName ks lookupName with
      | some ex => !ex.value.isEmpty
      | none => false
    if blocked then (-1, ks)
    else if isArrayKey then
      match elektraMetaArrayToKS vk (str "values") with
      | none => (1, ks)
      | some values =>
        let r := arrayWriteLoop ks lookupName ['#'] (values.map Prod.snd)
        (0, ksAppendKey r.1 ⟨lookupName, r.2, []⟩)
    else (0, ksAppendKey ks ⟨lookupName, vk.value, []⟩)

/-- The loop of writeOptionValues over the plan entry's compiled-option
references.  Long options are skipped once a short occurrence was written;
a write onto an occupied destination is an illegal-use error. -/
def writeOptionValuesLoop (keyWithOpt : Key) (options : KeySet) :
    KeySet → Bool → Bool → List Str → Option ErrKind × KeySet × Bool
  | ks, _, valueFound, [] => (none, ks, valueFound)
  | ks, shortFound, valueFound, optName :: rest =>
    let optKey := ksLookupByStr options optName
    let isShort := optName.take 6 = str "/short"
    if shortFound ∧ ¬isShort then
      writeOptionValuesLoop keyWithOpt options ks shortFound valueFound rest
    else
      let r := addProcKey ks keyWithOpt optKey
      if r.1 = 0 then
        writeOptionValuesLoop keyWithOpt options r.2 (shortFound ∨ isShort) true rest
      else if r.1 < 0 then (some .illegalUse, ks, valueFound)
      else writeOptionValuesLoop keyWithOpt options r.2 shortFound valueFound rest

/-- Translation of writeOptionValues: apply every option reference of the
plan entry, reporting whether any occurrence value was written. -/
def writeOptionValues (ks : KeySet) (keyWithOpt : Key) (options : KeySet) :
    Option ErrKind × KeySet × Bool :=
  match elektraMetaArrayToKS keyWithOpt (str "opt") with
  | none => (none, ks, false)
  | some metas => writeOptionValuesLoop keyWithOpt options ks false false (metas.map Prod.snd)

/-- The loop of writeEnvVarValues over the plan entry's environment-variable
references. -/
def writeEnvVarValuesLoop (keyWithOpt : Key) (envValues : KeySet) :
    KeySet → Bool → List Str → Option ErrKind × KeySet × Bool
  | ks, valueFound, [] => (none, ks, valueFound)
  | ks, valueFound, envName :: rest =>
    let envKey := ksLookupByStr envValues envName
    let envValueKey := splitEnvValue envKey
    let r := addProcKey ks keyWithOpt envValueKey
    if r.1 < 0 then (some .illegalUse, ks, valueFound)
    else writeEnvVarValuesLoop keyWithOpt envValues r.2 (valueFound ∨ r.1 = 0) rest

/-- Translation of writeEnvVarValues. -/
def writeEnvVarValues (ks : KeySet) (keyWithOpt : Key) (envValues : KeySet) :
    Option ErrKind × KeySet × Bool :=
  match elektraMetaArrayToKS keyWithOpt (str "env") with
  | none => (none, ks, false)
  | some metas => writeEnvVarValuesLoop keyWithOpt envValues ks false (metas.map Prod.snd)

/-- Translation of writeArgsValues: for a plan entry carrying
`args=remaining`, write every collected positional as an array element and
append the array parent carrying the final index label. -/
def writeArgsValues (ks : KeySet) (keyWithOpt : Key) (args : KeySet) : KeySet :=
  if keyGetMetaString keyWithOpt (str "args") ≠ some (str "remaining") then ks
  else
    let base := (procNameOf keyWithOpt.name).dropLast
    let r := arrayWriteLoop ks base ['#'] (args.map Key.value)
    ksAppendKey r.1 ⟨base, r.2, []⟩

/-- One iteration of the writer loop of elektraGetOpts for a single plan
entry: options first, then environment variables, then remaining args. -/
def writeKeyStep (ks : KeySet) (kw : Key) (options envValues args : KeySet) :
    Option ErrKind × KeySet :=
  match writeOptionValues ks kw options with
  | (some e, ks1, _) => (some e, ks1)
  | (none, ks1, true) => (none, ks1)
  | (none, ks1, false) =>
    match writeEnvVarValues ks1 kw envValues with
    | (some e, ks2, _) => (some e, ks2)
    | (none, ks2, true) => (none, ks2)
    | (none, ks2, false) => (none, writeArgsValues ks2 kw args)

/-- The writer loop of elektraGetOpts over the plan list. -/
def writeAll (options envValues args : KeySet) :
    KeySet → List Key → Option ErrKind × KeySet
  | ks, [] => (none, ks)
  | ks, kw :: rest =>
    match writeKeyStep ks kw options envValues args with
    | (some e, ks1) => (some e, ks1)
    | (none, ks1) => writeAll options envValues args ks1 rest

/-- Modelled from the spec: collect the `/args/#n` element keys of the parsed
occurrence set (elektraArrayGet on the `/args` parent), in order. -/
def elektraArrayGetArgs (options : KeySet) : KeySet :=
  options.filter (fun k =>
    k.name.length = 3 ∧ k.name.take 2 = [[], str "args"] ∧ (parseLabel (keyBaseName k)).isSome)

/-- Program base name: everything up to and including the last `/` of
`argv[0]` is stripped. -/
def progBaseName (argv0 : Str) : Str := (argv0.reverse.takeWhile (fun c => c ≠ '/')).reverse

/-- Translation of generateUsageLine. -/
def generateUsageLine (progname : Str) (hasOpts hasArgs : Bool) : Str :=
  str "Usage: " ++ progname ++ (if hasOpts then str " [OPTION]..." else [])
    ++ (if hasArgs then str " [ARG]..." else []) ++ ['\n']

/-- Translation of generateOptionsList: the empty string for an empty plan
list; otherwise `OPTIONS` followed by a newline-prefixed help line for every
plan entry that carries one, and a final newline. -/
def generateOptionsList (keysWithOpts : KeySet) : Str :=
  if keysWithOpts = [] then []
  else
    (keysWithOpts.foldl
      (fun acc k =>
        match keyGetMetaString k (str "opt/help") with
        | some line => acc ++ '\n' :: line
        | none => acc)
      (str "OPTIONS")) ++ ['\n']

/-- Result of one resolver invocation: the return code, the (possibly
extended) target key set, the error class if any, and the help metadata
written onto the error key in help mode. -/
structure OptsOut where
  ret : Int
  ks : KeySet
  err : Option ErrKind
  helpUsage : Option Str
  helpOptions : Option Str
deriving DecidableEq, Repr

/-- Translation of elektraGetOpts: compile the specification, parse argv,
answer help mode without touching the target key set, then resolve every
plan entry by precedence and write the values into the target key set. -/
def elektraGetOpts (ks : KeySet) (argv : List Str) (envp : List Str) (errorKey : Key) :
    OptsOut :=
  match processSpec ks with
  | .error e => ⟨-1, ks, some e, none, none⟩
  | .ok spec =>
    match parseArgs spec.options argv errorKey with
    | .error e => ⟨-1, ks, some e, none, none⟩
    | .ok options =>
      let helpKey :=
        match ksLookupByName options (shortOptName 'h') with
        | some k => some k
        | none => ksLookupByName options (longOptName (str "help"))
      match helpKey with
      | some _ =>
        let progname := progBaseName (argv.headD [])
        ⟨1, ks, none, some (generateUsageLine progname spec.hasOpts spec.hasArgs),
          some (generateOptionsList spec.keys)⟩
      | none =>
        let envValues := parseEnvp envp
        let args := elektraArrayGetArgs options
        match writeAll options envValues args ks spec.keys with
        | (some e, ks1) => ⟨-1, ks1, some e, none, none⟩
        | (none, ks1) => ⟨0, ks1, none, none, none⟩

/-- The rendered help lines carried by the plan entries, in plan order. -/
def helpLines (ks : KeySet) : List Str :=
  ks.filterMap (fun k => keyGetMetaString k (str "opt/help"))

/-- The compiled-option references (rendered option key names) recorded on a
plan entry, in slot order. -/
def optRefs (kw : Key) : List Str :=
  ((elektraMetaArrayToKS kw (str "opt")).getD []).map Prod.snd

/-- The environment-variable references (rendered names) recorded on a plan
entry, in declaration order. -/
def envRefs (kw : Key) : List Str :=
  ((elektraMetaArrayToKS kw (str "env")).getD []).map Prod.snd

/-- The values recorded on an occurrence key: the `values` metadata array for
a repeatable option, the singleton of the key's value otherwise. -/
def recordedVals (isArray : Bool) (k : Key) : List Str :=
  if isArray then ((elektraMetaArrayToKS k (str "values")).getD []).map Prod.snd
  else [k.value]

/-- The short-option character bound at option slot `m` of a spec key, read
exactly as the compiler reads it. -/
def shortAt (k : Key) (m : Str) : Option Char :=
  (keyGetMetaString k m).bind List.head?

/-- The long-option name bound at option slot `m` of a spec key. -/
def longAt (k : Key) (m : Str) : Option Str :=
  keyGetMetaString k (m ++ str "/long")

/-- The environment-variable names declared on a spec key, read exactly as
the compiler reads them. -/
def envNamesOf (k : Key) : List Str :=
  ((ksMetaGetSingleOrArray k (str "env")).getD []).map Prod.snd

/-- The option-slot metadata names of a spec key ([] when none). -/
def specPlaces (k : Key) : List Str := (optPlaces k).getD []

/-- All short-option characters bound by the specification, one entry per
binding place (spec key and option slot), in compiler-processing order. -/
def allShortBindings (l : List Key) : List Char :=
  l.flatMap (fun k =>
    if k.name.head? = some (str "spec") then (specPlaces k).filterMap (shortAt k) else [])

/-- All long-option names bound by the specification, one entry per binding
place, in compiler-processing order. -/
def allLongBindings (l : List Key) : List Str :=
  l.flatMap (fun k =>
    if k.name.head? = some (str "spec") then (specPlaces k).filterMap (longAt k) else [])

/-- All environment-variable names bound by the specification, one entry per
binding place, in compiler-processing order. -/
def allEnvBindings (l : List Key) : List Str :=
  l.flatMap (fun k =>
    if k.name.head? = some (str "spec") then envNamesOf k else [])

/-- The proc-namespace array element keys written for a value list, starting
at index `j`: sibling keys `…/#j`, `…/#(j+1)`, … holding the values in
order. -/
def procElems (base : List Str) : Nat → List Str → List Key
  | _, [] => []
  | j, v :: vs => ⟨base ++ [arrayLabel j], v, []⟩ :: procElems base (j + 1) vs

/-- A concrete specification binding the same short option character `x` to
two different spec keys. -/
def dupShortSpec : KeySet :=
  [⟨[str "spec", str "one"], [], [(str "opt", str "x")]⟩,
   ⟨[str "spec", str "two"], [], [(str "opt", str "x")]⟩]

/-- A concrete specification with one array key bound to the environment
variable `X` and to the remaining-args list. -/
def envArgsSpec : KeySet :=
  [⟨[str "spec", str "files", str "#"], [],
    [(str "env", str "X"), (str "args", str "remaining")]⟩]

/-- A concrete plan entry whose option slots are, in order, the long option
`verbose` and the short option `v`. -/
def kwShortLong : Key :=
  ⟨[str "spec", str "verbose"], [],
   [(str "opt", str "#1"), (str "opt/#0", str "/long/verbose"), (str "opt/#1", str "/short/v")]⟩

/-- Concrete parsed occurrences for the plan entry above: the long option
occurred with an empty attached value, the short option with its flag
value. -/
def occShortLong : KeySet :=
  [⟨[[], str "long", str "verbose"], [], [(str "key", str "/verbose")]⟩,
   ⟨[[], str "short", str "v"], str "1", [(str "key", str "/verbose")]⟩]

/-- Looking up the name of a freshly appended key finds that key. -/
theorem ksLookupByName_ksAppendKey_self (ks : KeySet) (k : Key) :
    ksLookupByName (ksAppendKey ks k) k.name = some k := by
  induction ks with
  | nil => simp [ksAppendKey, ksLookupByName]
  | cons k2 rest ih =>
    by_cases h : k2.name = k.name
    · simp [ksAppendKey, h, ksLookupByName, List.find?]
    · simpa [ksAppendKey, h, ksLookupByName, List.find?] using ih

/-- Appending a key does not change lookups of other names. -/
theorem ksLookupByName_ksAppendKey_ne (ks : KeySet) (k : Key) (n : List Str)
    (h : n ≠ k.name) :
    ksLookupByName (ksAppendKey ks k) n = ksLookupByName ks n := by
  have hkn : k.name ≠ n := Ne.symm h
  induction ks with
  | nil => simp [ksAppendKey, ksLookupByName, List.find?, hkn]
  | cons k2 rest ih =>
    by_cases h2 : k2.name = k.name
    · have hk2 : k2.name ≠ n := by rw [h2]; exact hkn
      simp only [ksAppendKey, if_pos h2]
      simp [ksLookupByName, List.find?, hkn, hk2]
    · simp only [ksAppendKey, if_neg h2]
      by_cases h3 : k2.name = n
      · simp [ksLookupByName, List.find?, h3]
      · simp only [ksLookupByName, List.find?] at ih ⊢
        simp [h3, ih]

/-- Appending a key whose name is not present appends it at the end. -/
theorem ksAppendKey_of_fresh (ks : KeySet) (k : Key)
    (h : ksLookupByName ks k.name = none) :
    ksAppendKey ks k = ks ++ [k] := by
  induction ks with
  | nil => simp [ksAppendKey]
  | cons k2 rest ih =>
    by_cases h2 : k2.name = k.name
    · simp [ksLookupByName, h2] at h
    · have hr : ksLookupByName rest k.name = none := by
        simpa [ksLookupByName, h2] using h
      simp [ksAppendKey, h2, ih hr]

/-- Setting a metadata entry makes it readable. -/
theorem keyGetMeta_keySetMeta_self (k : Key) (m v : Str) :
    keyGetMeta (keySetMeta k m v) m = some v := by
  show (List.find? _ (metaSet k.meta m v)).map _ = _
  induction k.meta with
  | nil => simp [metaSet, List.find?]
  | cons p rest ih =>
    by_cases h : p.1 = m
    · simp [metaSet, h, List.find?]
    · simpa [metaSet, h, List.find?] using ih

/-- Setting a metadata entry leaves other entries unchanged. -/
theorem keyGetMeta_keySetMeta_ne (k : Key) (m v m2 : Str) (h : m2 ≠ m) :
    keyGetMeta (keySetMeta k m v) m2 = keyGetMeta k m2 := by
  have hmn : m ≠ m2 := Ne.symm h
  show (List.find? _ (metaSet k.meta m v)).map _ = (List.find? _ k.meta).map _
  induction k.meta with
  | nil => simp [metaSet, List.find?, hmn]
  | cons p rest ih =>
    by_cases h2 : p.1 = m
    · have hp : p.1 ≠ m2 := by rw [h2]; exact hmn
      simp only [metaSet, if_pos h2]
      simp [List.find?, hmn, hp]
    · simp only [metaSet, if_neg h2]
      by_cases h3 : p.1 = m2
      · simp [List.find?, h3]
      · simp only [List.find?] at ih ⊢
        simp [h3, ih]

/-- The fuelled digit renderer is independent of the fuel once sufficient. -/
theorem natDigitsAux_eq : ∀ (n f g : Nat), n < f → n < g →
    natDigitsAux f n = natDigitsAux g n := by
  intro n
  induction n using Nat.strong_induction_on with
  | _ n ih =>
    intro f g hf hg
    cases f with
    | zero => omega
    | succ f =>
      cases g with
      | zero => omega
      | succ g =>
        by_cases h : n < 10
        · simp [natDigitsAux, h]
        · have hd : n / 10 < n := Nat.div_lt_self (by omega) (by omega)
          simp only [natDigitsAux, if_neg h]
          rw [ih (n / 10) hd f g (by omega) (by omega)]

/-- Digit string of a one-digit number. -/
theorem natDigits_lt10 (n : Nat) (h : n < 10) : natDigits n = [digitChar n] := by
  simp [natDigits, natDigitsAux, h]

/-- Digit string of a multi-digit number. -/
theorem natDigits_ge10 (n : Nat) (h : ¬n < 10) :
    natDigits n = natDigits (n / 10) ++ [digitChar (n % 10)] := by
  have hd : n / 10 < n := Nat.div_lt_self (by omega) (by omega)
  show natDigitsAux (n + 1) n = _
  simp only [natDigitsAux, if_neg h]
  rw [natDigitsAux_eq (n / 10) n (n / 10 + 1) (by omega) (by omega)]
  rfl

/-- The digit value of a rendered digit. -/
theorem digitVal_digitChar (n : Nat) (h : n < 10) : digitVal (digitChar n) = n := by
  interval_cases n <;> rfl

/-- Every character emitted by the digit renderer is a decimal digit. -/
theorem digitChar_isDigit (n : Nat) : (digitChar n).isDigit = true := by
  unfold digitChar
  split <;> rfl

/-- Parsing after appending one digit character. -/
theorem parseNatDigits_append (s : Str) (c : Char) :
    parseNatDigits (s ++ [c]) = parseNatDigits s * 10 + digitVal c := by
  simp [parseNatDigits, List.foldl_append]

/-- Round trip of the decimal digit codec. -/
theorem parseNatDigits_natDigits : ∀ n : Nat, parseNatDigits (natDigits n) = n := by
  intro n
  induction n using Nat.strong_induction_on with
  | _ n ih =>
    by_cases h : n < 10
    · rw [natDigits_lt10 n h]
      show 0 * 10 + digitVal (digitChar n) = n
      rw [digitVal_digitChar n h]; omega
    · have hd : n / 10 < n := Nat.div_lt_self (by omega) (by omega)
      rw [natDigits_ge10 n h, parseNatDigits_append, ih (n / 10) hd,
        digitVal_digitChar (n % 10) (by omega)]
      omega

/-- The digit string of a number is never empty. -/
theorem natDigits_ne_nil (n : Nat) : natDigits n ≠ [] := by
  by_cases h : n < 10
  · rw [natDigits_lt10 n h]; simp
  · rw [natDigits_ge10 n h]; simp

/-- All characters of a digit string are decimal digits. -/
theorem natDigits_all_isDigit : ∀ n : Nat, (natDigits n).all Char.isDigit = true := by
  intro n
  induction n using Nat.strong_induction_on with
  | _ n ih =>
    by_cases h : n < 10
    · rw [natDigits_lt10 n h]
      simp [digitChar_isDigit]
    · have hd : n / 10 < n := Nat.div_lt_self (by omega) (by omega)
      rw [natDigits_ge10 n h]
      simp [List.all_append, ih (n / 10) hd, digitChar_isDigit]

/-- Round trip of the array-label codec. -/
theorem parseLabel_arrayLabel (n : Nat) : parseLabel (arrayLabel n) = some n := by
  show parseLabel ('#' :: natDigits n) = some n
  obtain ⟨c, cs, hcs⟩ : ∃ c cs, natDigits n = c :: cs := by
    cases h : natDigits n with
    | nil => exact absurd h (natDigits_ne_nil n)
    | cons c cs => exact ⟨c, cs, rfl⟩
  rw [hcs]
  show (if c :: cs ≠ [] ∧ (c :: cs).all Char.isDigit then some (parseNatDigits (c :: cs)) else none) = some n
  rw [if_pos ⟨by simp, by rw [← hcs]; exact natDigits_all_isDigit n⟩, ← hcs,
    parseNatDigits_natDigits]

/-- Array labels are injective. -/
theorem arrayLabel_inj {m n : Nat} (h : arrayLabel m = arrayLabel n) : m = n := by
  have h1 := parseLabel_arrayLabel m
  rw [h, parseLabel_arrayLabel n] at h1
  exact (Option.some.injEq _ _ ▸ h1).symm

/-- Incrementing an array label yields the next label. -/
theorem arrayInc_arrayLabel (n : Nat) : arrayInc (arrayLabel n) = arrayLabel (n + 1) := by
  obtain ⟨c, cs, hcs⟩ : ∃ c cs, natDigits n = c :: cs := by
    cases h : natDigits n with
    | nil => exact absurd h (natDigits_ne_nil n)
    | cons c cs => exact ⟨c, cs, rfl⟩
  show arrayInc ('#' :: natDigits n) = _
  rw [hcs]
  show '#' :: natDigits (parseNatDigits (c :: cs) + 1) = _
  rw [← hcs, parseNatDigits_natDigits]
  rfl

/-- Incrementing the running parent label steps it to the next state. -/
theorem arrayInc_argParentLabel (j : Nat) :
    arrayInc (argParentLabel j) = argParentLabel (j + 1) := by
  cases j with
  | zero => rfl
  | succ j =>
    show arrayInc (arrayLabel j) = argParentLabel (j + 2)
    rw [arrayInc_arrayLabel]
    rfl

/-- The final label returned by the array-element writing loop. -/
theorem arrayWriteLoop_snd (base : List Str) :
    ∀ (vs : List Str) (ks : KeySet) (j : Nat),
      (arrayWriteLoop ks base (argParentLabel j) vs).2 = argParentLabel (j + vs.length) := by
  intro vs
  induction vs with
  | nil => intro ks j; simp [arrayWriteLoop]
  | cons v vs ih =>
    intro ks j
    show (arrayWriteLoop _ base (arrayInc (argParentLabel j)) vs).2 = _
    rw [arrayInc_argParentLabel, ih]
    congr 1
    simp
    omega

/-- Lookup in an appended key set. -/
theorem ksLookupByName_append (ks1 ks2 : KeySet) (n : List Str) :
    ksLookupByName (ks1 ++ ks2) n
      = ((ksLookupByName ks1 n).or (ksLookupByName ks2 n)) := by
  simp [ksLookupByName, List.find?_append]

/-- The key set produced by the array-element writing loop, when the element
names are not yet present. -/
theorem arrayWriteLoop_fst (base : List Str) :
    ∀ (vs : List Str) (ks : KeySet) (j : Nat),
      (∀ i, j ≤ i → ksLookupByName ks (base ++ [arrayLabel i]) = none) →
      (arrayWriteLoop ks base (argParentLabel j) vs).1 = ks ++ procElems base j vs := by
  intro vs
  induction vs with
  | nil => intro ks j _; simp [arrayWriteLoop, procElems]
  | cons v vs ih =>
    intro ks j h
    have he : argParentLabel (j + 1) = arrayLabel j := rfl
    show (arrayWriteLoop (ksAppendKey ks ⟨base ++ [arrayInc (argParentLabel j)], v, []⟩)
      base (arrayInc (argParentLabel j)) vs).1 = ks ++ procElems base j (v :: vs)
    rw [arrayInc_argParentLabel]
    rw [ih (ksAppendKey ks ⟨base ++ [argParentLabel (j + 1)], v, []⟩) (j + 1) ?_]
    · rw [he, ksAppendKey_of_fresh _ _ (h j le_rfl)]
      simp [procElems]
    · intro i hi
      rw [he, ksAppendKey_of_fresh _ _ (h j le_rfl), ksLookupByName_append, h i (by omega)]
      have hne : (⟨base ++ [arrayLabel j], v, []⟩ : Key).name ≠ base ++ [arrayLabel i] := by
        show base ++ [arrayLabel j] ≠ base ++ [arrayLabel i]
        simp only [ne_eq, List.append_cancel_left_eq, List.cons.injEq, and_true]
        intro hc
        exact absurd (arrayLabel_inj hc) (by omega)
      simp [ksLookupByName, List.find?, hne]

/-- The array-element keys written by the loop never carry the parent name. -/
theorem ksLookupByName_procElems_parent (base : List Str) :
    ∀ (vs : List Str) (j : Nat), ksLookupByName (procElems base j vs) base = none := by
  intro vs
  induction vs with
  | nil => intro j; simp [procElems, ksLookupByName]
  | cons v vs ih =>
    intro j
    have hne : (⟨base ++ [arrayLabel j], v, []⟩ : Key).name ≠ base := by
      show base ++ [arrayLabel j] ≠ base
      intro hc
      have := congrArg List.length hc
      simp at this
    simp [procElems, ksLookupByName, List.find?, hne]
    simpa [ksLookupByName] using ih (j + 1)

/-- Writing a chosen array-mode occurrence: addProcKey creates the sibling
element keys in order and appends the parent carrying the final label. -/
theorem addProcKey_array_write (ks : KeySet) (kw vk : Key) (l : List (Str × Str))
    (h1 : (procNameOf kw.name).getLast? = some (str "#"))
    (h2 : elektraMetaArrayToKS vk (str "values") = some l)
    (h3 : ksLookupByName ks ((procNameOf kw.name).dropLast) = none)
    (h4 : ∀ i, ksLookupByName ks ((procNameOf kw.name).dropLast ++ [arrayLabel i]) = none) :
    addProcKey ks kw (some vk)
      = (0, ks ++ procElems ((procNameOf kw.name).dropLast) 0 (l.map Prod.snd)
          ++ [⟨(procNameOf kw.name).dropLast, argParentLabel l.length, []⟩]) := by
  have hfst : (arrayWriteLoop ks ((procNameOf kw.name).dropLast) ['#'] (l.map Prod.snd)).1
      = ks ++ procElems ((procNameOf kw.name).dropLast) 0 (l.map Prod.snd) :=
    arrayWriteLoop_fst _ _ ks 0 (fun i _ => h4 i)
  have hsnd : (arrayWriteLoop ks ((procNameOf kw.name).dropLast) ['#'] (l.map Prod.snd)).2
      = argParentLabel l.length := by
    have h0 := arrayWriteLoop_snd ((procNameOf kw.name).dropLast) (l.map Prod.snd) ks 0
    rw [show argParentLabel 0 = ['#'] from rfl] at h0
    rw [h0]
    congr 1
    simp
  simp only [addProcKey, h1, h2, h3, if_true, eq_self_iff_true]
  rw [hfst, hsnd]
  rw [ksAppendKey_of_fresh]
  · simp
  · rw [ksLookupByName_append, h3, ksLookupByName_procElems_parent]
    rfl

/-- Skipping an array-mode write when the value key carries no `values`
metadata array: addProcKey writes nothing and reports 1. -/
theorem addProcKey_array_skip (ks : KeySet) (kw vk : Key)
    (h1 : (procNameOf kw.name).getLast? = some (str "#"))
    (h2 : elektraMetaArrayToKS vk (str "values") = none)
    (h3 : ksLookupByName ks ((procNameOf kw.name).dropLast) = none) :
    addProcKey ks kw (some vk) = (1, ks) := by
  simp only [addProcKey, h1, h2, h3, if_true, eq_self_iff_true]
  simp

/-- The fold of generateOptionsList appends one newline-prefixed line for
every plan entry carrying a help line. -/
theorem generateOptionsList_foldl (ks : KeySet) : ∀ acc : Str,
    ks.foldl
      (fun acc k =>
        match keyGetMetaString k (str "opt/help") with
        | some line => acc ++ '\n' :: line
        | none => acc) acc
      = acc ++ ((helpLines ks).map (fun l => '\n' :: l)).flatten := by
  induction ks with
  | nil => intro acc; simp [helpLines]
  | cons k rest ih =>
    intro acc
    cases h : keyGetMetaString k (str "opt/help") with
    | none => simp [List.foldl, h, helpLines, List.filterMap_cons, ih]
    | some line =>
      simp [List.foldl, h, helpLines, List.filterMap_cons, ih, List.append_assoc]

/-- Claim C9 (amended): the rendered options block is the empty string
exactly when the plan list is empty; for a non-empty plan list it is the
literal `OPTIONS`, followed by a newline-prefixed help line for every plan
entry that carries one (in plan order), and a trailing newline — in
particular a non-empty plan list without any help line yields the non-empty
block consisting of `OPTIONS` and a newline. -/
theorem c9_options_block_amended :
    (∀ ks : KeySet, generateOptionsList ks = [] ↔ ks = [])
    ∧ (∀ ks : KeySet, ks ≠ [] →
        generateOptionsList ks
          = str "OPTIONS" ++ ((helpLines ks).map (fun l => '\n' :: l)).flatten ++ ['\n']) := by
  have h2 : ∀ ks : KeySet, ks ≠ [] →
      generateOptionsList ks
        = str "OPTIONS" ++ ((helpLines ks).map (fun l => '\n' :: l)).flatten ++ ['\n'] := by
    intro ks hks
    unfold generateOptionsList
    rw [if_neg hks, generateOptionsList_foldl]
  refine ⟨fun ks => ⟨fun h => ?_, fun h => by simp [h, generateOptionsList]⟩, h2⟩
  by_cases hne : ks = []
  · exact hne
  · exact absurd (h ▸ h2 ks hne).symm (by simp [str])

/-- Claim C9 counterexample: a one-entry plan list whose entry carries no
help line produces the block `OPTIONS` plus newline, not the empty string. -/
theorem c9_counterexample :
    generateOptionsList [⟨[str "spec", str "x"], [], []⟩] = str "OPTIONS" ++ ['\n']
    ∧ generateOptionsList [⟨[str "spec", str "x"], [], []⟩] ≠ ([] : Str)
    ∧ keyGetMetaString (⟨[str "spec", str "x"], [], []⟩ : Key) (str "opt/help") = none := by
  refine ⟨by decide, by decide, by decide⟩

/-- Claim C9 witness: the amended block shape at a concrete plan list. -/
theorem c9_options_block_amended_witness :
    generateOptionsList [⟨[str "spec", str "x"], [], [(str "opt/help", str "  -x  line")]⟩]
      = str "OPTIONS"
        ++ ((helpLines [⟨[str "spec", str "x"], [], [(str "opt/help", str "  -x  line")]⟩]).map
              (fun l => '\n' :: l)).flatten
        ++ ['\n'] :=
  c9_options_block_amended.2 _ (by decide)

/-- Claim C4 (amended): a lone `-` token before `--` is ignored entirely by
the argument parser: it produces no option occurrence and no error, but it
is not appended to the positional list either — the parser simply steps to
the next token with all state unchanged. -/
theorem c4_dash_amended :
    (∀ (optionsSpec : KeySet) (rest : List Str) (options : KeySet),
        parseShortOptions optionsSpec [] rest options = .ok (options, false))
    ∧ (∀ (optionsSpec : KeySet) (posixly : Bool) (fuel : Nat) (rest : List Str)
        (options : KeySet) (cnt : Nat),
        parseArgsLoop optionsSpec posixly (fuel + 1) (str "-" :: rest) options cnt
          = parseArgsLoop optionsSpec posixly fuel rest options cnt) := by
  exact ⟨fun _ _ _ => rfl, fun _ _ _ _ _ _ => rfl⟩

/-- Claim C4 counterexample: with an empty option table and argv containing
only a lone `-`, the parser succeeds but the positional list stays empty
(the `/args` parent keeps the bare `#` marker and no `/args/#0` element
exists), so `-` was not appended to the positional list. -/
theorem c4_counterexample :
    parseArgs [] [str "prog", str "-"] emptyKey = .ok [⟨[[], str "args"], ['#'], []⟩]
    ∧ ksLookupByName [(⟨[[], str "args"], ['#'], []⟩ : Key)] (argEntryName 0) = none := by
  exact ⟨by decide, by decide⟩

/-- Claim C10: for a plan entry carrying `args = remaining` the writer always
appends the proc array parent key — even with an empty positional list, in
which case the parent carries the bare `#` marker — so the target tree
receives that key on every successful run regardless of argv, as the
concrete run with an empty argv shows. -/
theorem c10_args_parent_always (ks : KeySet) (kw : Key) (args : KeySet)
    (h : keyGetMetaString kw (str "args") = some (str "remaining")) :
    ksLookupByName (writeArgsValues ks kw args) ((procNameOf kw.name).dropLast)
      = some ⟨(procNameOf kw.name).dropLast, argParentLabel args.length, []⟩
    ∧ (elektraGetOpts
        [⟨[str "spec", str "files", str "#"], [], [(str "args", str "remaining")]⟩]
        [str "prog"] [] emptyKey).ret = 0
    ∧ ksLookupByName (elektraGetOpts
        [⟨[str "spec", str "files", str "#"], [], [(str "args", str "remaining")]⟩]
        [str "prog"] [] emptyKey).ks [str "proc", str "files"]
      = some ⟨[str "proc", str "files"], ['#'], []⟩ := by
  refine ⟨?_, by decide, by decide⟩
  unfold writeArgsValues
  rw [if_neg (by simp [h])]
  have hsnd : (arrayWriteLoop ks ((procNameOf kw.name).dropLast) ['#'] (args.map Key.value)).2
      = argParentLabel args.length := by
    have h0 := arrayWriteLoop_snd ((procNameOf kw.name).dropLast) (args.map Key.value) ks 0
    rw [show argParentLabel 0 = ['#'] from rfl] at h0
    rw [h0]
    congr 1
    simp
  show ksLookupByName
      (ksAppendKey (arrayWriteLoop ks ((procNameOf kw.name).dropLast) ['#'] (args.map Key.value)).1
        ⟨(procNameOf kw.name).dropLast,
          (arrayWriteLoop ks ((procNameOf kw.name).dropLast) ['#'] (args.map Key.value)).2, []⟩)
      ((procNameOf kw.name).dropLast)
    = some ⟨(procNameOf kw.name).dropLast, argParentLabel args.length, []⟩
  rw [hsnd]
  exact ksLookupByName_ksAppendKey_self _ _

/-- Claim C10 witness: the general part applied to a concrete plan entry
with an empty positional list. -/
theorem c10_args_parent_always_witness :
    ksLookupByName
        (writeArgsValues [] ⟨[str "spec", str "files", str "#"], [], [(str "args", str "remaining")]⟩ [])
        [str "proc", str "files"]
      = some ⟨[str "proc", str "files"], ['#'], []⟩ :=
  (c10_args_parent_always []
    ⟨[str "spec", str "files", str "#"], [], [(str "args", str "remaining")]⟩ []
    (by decide)).1

/-- Claim C7: a chosen array-mode source (a repeated option occurrence via
addProcKey, or the remaining-args list via writeArgsValues) writes sibling
proc entries `#0`, `#1`, … holding the values in source-encounter order and
sets the array parent's value to the final index label; concretely,
`-i a -i b` yields proc/items/#0 = a, proc/items/#1 = b and parent value
`#1`. -/
theorem c7_array_write_shape :
    (∀ (ks : KeySet) (kw vk : Key) (l : List (Str × Str)),
      (procNameOf kw.name).getLast? = some (str "#") →
      elektraMetaArrayToKS vk (str "values") = some l →
      ksLookupByName ks ((procNameOf kw.name).dropLast) = none →
      (∀ i, ksLookupByName ks ((procNameOf kw.name).dropLast ++ [arrayLabel i]) = none) →
      addProcKey ks kw (some vk)
        = (0, ks ++ procElems ((procNameOf kw.name).dropLast) 0 (l.map Prod.snd)
            ++ [⟨(procNameOf kw.name).dropLast, argParentLabel l.length, []⟩]))
    ∧ (∀ (ks : KeySet) (kw : Key) (args : KeySet),
      keyGetMetaString kw (str "args") = some (str "remaining") →
      ksLookupByName ks ((procNameOf kw.name).dropLast) = none →
      (∀ i, ksLookupByName ks ((procNameOf kw.name).dropLast ++ [arrayLabel i]) = none) →
      writeArgsValues ks kw args
        = ks ++ procElems ((procNameOf kw.name).dropLast) 0 (args.map Key.value)
            ++ [⟨(procNameOf kw.name).dropLast, argParentLabel args.length, []⟩])
    ∧ (elektraGetOpts
          [⟨[str "spec", str "items", str "#"], [],
            [(str "opt", str "i"), (str "opt/arg", str "required")]⟩]
          [str "prog", str "-i", str "a", str "-i", str "b"] [] emptyKey).ret = 0
    ∧ ksLookupByName (elektraGetOpts
          [⟨[str "spec", str "items", str "#"], [],
            [(str "opt", str "i"), (str "opt/arg", str "required")]⟩]
          [str "prog", str "-i", str "a", str "-i", str "b"] [] emptyKey).ks
        [str "proc", str "items", str "#0"]
      = some ⟨[str "proc", str "items", str "#0"], str "a", []⟩
    ∧ ksLookupByName (elektraGetOpts
          [⟨[str "spec", str "items", str "#"], [],
            [(str "opt", str "i"), (str "opt/arg", str "required")]⟩]
          [str "prog", str "-i", str "a", str "-i", str "b"] [] emptyKey).ks
        [str "proc", str "items", str "#1"]
      = some ⟨[str "proc", str "items", str "#1"], str "b", []⟩
    ∧ ksLookupByName (elektraGetOpts
          [⟨[str "spec", str "items", str "#"], [],
            [(str "opt", str "i"), (str "opt/arg", str "required")]⟩]
          [str "prog", str "-i", str "a", str "-i", str "b"] [] emptyKey).ks
        [str "proc", str "items"]
      = some ⟨[str "proc", str "items"], str "#1", []⟩ := by
  refine ⟨fun ks kw vk l h1 h2 h3 h4 => addProcKey_array_write ks kw vk l h1 h2 h3 h4,
    ?_, by decide, by decide, by decide, by decide⟩
  · intro ks kw args h1 h3 h4
    have hfst : (arrayWriteLoop ks ((procNameOf kw.name).dropLast) ['#'] (args.map Key.value)).1
        = ks ++ procElems ((procNameOf kw.name).dropLast) 0 (args.map Key.value) :=
      arrayWriteLoop_fst _ _ ks 0 (fun i _ => h4 i)
    have hsnd : (arrayWriteLoop ks ((procNameOf kw.name).dropLast) ['#'] (args.map Key.value)).2
        = argParentLabel args.length := by
      have h0 := arrayWriteLoop_snd ((procNameOf kw.name).dropLast) (args.map Key.value) ks 0
      rw [show argParentLabel 0 = ['#'] from rfl] at h0
      rw [h0]
      congr 1
      simp
    unfold writeArgsValues
    rw [if_neg (by simp [h1])]
    show ksAppendKey (arrayWriteLoop ks ((procNameOf kw.name).dropLast) ['#'] (args.map Key.value)).1
      ⟨(procNameOf kw.name).dropLast,
        (arrayWriteLoop ks ((procNameOf kw.name).dropLast) ['#'] (args.map Key.value)).2, []⟩ = _
    rw [hfst, hsnd]
    rw [ksAppendKey_of_fresh]
    rw [ksLookupByName_append, h3, ksLookupByName_procElems_parent]
    rfl

/-- Claim C7 witness: the general addProcKey part applied to a concrete
array plan entry and a two-element values array. -/
theorem c7_array_write_shape_witness :
    addProcKey [] ⟨[str "spec", str "items", str "#"], [], []⟩
        (some ⟨[[], str "short", str "i"], [],
          [(str "values", str "#1"), (str "values/#0", str "a"), (str "values/#1", str "b")]⟩)
      = (0, ([] : KeySet) ++ procElems [str "proc", str "items"] 0 [str "a", str "b"]
          ++ [⟨[str "proc", str "items"], argParentLabel 2, []⟩]) :=
  c7_array_write_shape.1 []
    ⟨[str "spec", str "items", str "#"], [], []⟩
    ⟨[[], str "short", str "i"], [],
      [(str "values", str "#1"), (str "values/#0", str "a"), (str "values/#1", str "b")]⟩
    [(str "values/#0", str "a"), (str "values/#1", str "b")]
    (by decide) (by decide) (by decide) (fun i => by simp [ksLookupByName])

/-- A metadata name differs from its own element names. -/
theorem str_ne_append_slash (m l : Str) : m ≠ m ++ '/' :: l := by
  intro h
  have := congrArg List.length h
  simp at this

/-- Element names of the same metadata array agree only at equal indices. -/
theorem elemName_inj {m : Str} {i j : Nat}
    (h : m ++ '/' :: arrayLabel i = m ++ '/' :: arrayLabel j) : i = j := by
  have h1 := List.append_cancel_left h
  injection h1 with _ h2
  exact arrayLabel_inj h2

/-- Unfolding elektraMetaArrayAdd on a key without the array parent. -/
theorem metaArrayAdd_of_none (k : Key) (m v : Str) (h : keyGetMeta k m = none) :
    elektraMetaArrayAdd k m v
      = keySetMeta (keySetMeta k m (arrayLabel 0)) (m ++ '/' :: arrayLabel 0) v := by
  unfold elektraMetaArrayAdd
  rw [h]

/-- Unfolding elektraMetaArrayAdd on a key with an array parent. -/
theorem metaArrayAdd_of_some (k : Key) (m v last : Str) (h : keyGetMeta k m = some last) :
    elektraMetaArrayAdd k m v
      = keySetMeta (keySetMeta k m (arrayInc last)) (m ++ '/' :: arrayInc last) v := by
  unfold elektraMetaArrayAdd
  rw [h]

/-- Parent metadata after folding elektraMetaArrayAdd over a value list. -/
theorem foldAdd_parent (m : Str) : ∀ (vs : List Str) (k : Key),
    keyGetMeta k m = none →
    keyGetMeta (vs.foldl (fun k v => elektraMetaArrayAdd k m v) k) m
      = if vs = [] then none else some (arrayLabel (vs.length - 1)) := by
  intro vs
  induction vs using List.reverseRecOn with
  | nil => intro k hm; simpa using hm
  | append_singleton vs v ih =>
    intro k hm
    rw [List.foldl_append]
    simp only [List.foldl]
    by_cases hvs : vs = []
    · subst hvs
      simp only [List.foldl]
      rw [metaArrayAdd_of_none k m v hm]
      rw [keyGetMeta_keySetMeta_ne _ _ _ _ (str_ne_append_slash m _),
        keyGetMeta_keySetMeta_self]
      simp
    · have hp := ih k hm
      rw [if_neg hvs] at hp
      rw [metaArrayAdd_of_some _ m v _ hp]
      rw [keyGetMeta_keySetMeta_ne _ _ _ _ (str_ne_append_slash m _),
        keyGetMeta_keySetMeta_self]
      rw [arrayInc_arrayLabel]
      have hl : vs.length - 1 + 1 = vs.length := by
        have : vs.length ≠ 0 := by simpa using hvs
        omega
      rw [hl]
      simp [List.length_append]

/-- Element metadata after folding elektraMetaArrayAdd over a value list. -/
theorem foldAdd_elem (m : Str) : ∀ (vs : List Str) (k : Key),
    keyGetMeta k m = none →
    ∀ i, i < vs.length →
      keyGetMeta (vs.foldl (fun k v => elektraMetaArrayAdd k m v) k)
          (m ++ '/' :: arrayLabel i)
        = some (vs.getD i []) := by
  intro vs
  induction vs using List.reverseRecOn with
  | nil => intro k _ i hi; simp at hi
  | append_singleton vs v ih =>
    intro k hm i hi
    rw [List.foldl_append]
    simp only [List.foldl]
    have hp := foldAdd_parent m vs k hm
    by_cases hvs : vs = []
    · subst hvs
      simp only [List.length_append, List.length_nil, List.length_cons] at hi
      have hi0 : i = 0 := by omega
      subst hi0
      simp only [List.foldl]
      rw [metaArrayAdd_of_none k m v hm]
      rw [keyGetMeta_keySetMeta_self]
      simp
    · rw [if_neg hvs] at hp
      have hlen : vs.length - 1 + 1 = vs.length := by
        have : vs.length ≠ 0 := by simpa using hvs
        omega
      rw [metaArrayAdd_of_some _ m v _ hp, arrayInc_arrayLabel, hlen]
      by_cases hiv : i = vs.length
      · subst hiv
        rw [keyGetMeta_keySetMeta_self]
        rw [List.getD_eq_getElem _ _ (by simp), List.getElem_concat_length]
        rfl
      · have hne : m ++ '/' :: arrayLabel i ≠ m ++ '/' :: arrayLabel vs.length := by
          intro hc
          exact hiv (elemName_inj hc)
        have hlt : i < vs.length := by
          simp only [List.length_append, List.length_nil, List.length_cons] at hi
          omega
        have hnm : m ++ '/' :: arrayLabel i ≠ m := fun hc =>
          str_ne_append_slash m (arrayLabel i) hc.symm
        rw [keyGetMeta_keySetMeta_ne _ _ _ _ hne, keyGetMeta_keySetMeta_ne _ _ _ _ hnm]
        rw [ih k hm i hlt]
        rw [List.getD_append _ _ _ _ hlt]

/-- Unfolding elektraMetaArrayToKS on a key whose parent metadata carries an
array label. -/
theorem metaArrayToKS_of_parent (k : Key) (m : Str) (n : Nat)
    (h : keyGetMeta k m = some (arrayLabel n)) :
    elektraMetaArrayToKS k m
      = some ((List.range (n + 1)).filterMap (fun i =>
          (keyGetMeta k (m ++ '/' :: arrayLabel i)).map
            (fun v => (m ++ '/' :: arrayLabel i, v)))) := by
  unfold elektraMetaArrayToKS
  rw [h]
  show (match parseLabel (arrayLabel n) with
    | none => some ([] : List (Str × Str))
    | some n =>
      some ((List.range (n + 1)).filterMap (fun i =>
        (keyGetMeta k (m ++ '/' :: arrayLabel i)).map
          (fun v => (m ++ '/' :: arrayLabel i, v))))) = _
  rw [parseLabel_arrayLabel]

/-- Reading back a metadata array built by folding elektraMetaArrayAdd over a
non-empty value list recovers exactly that list. -/
theorem metaArrayToKS_foldAdd (m : Str) (vs : List Str) (k : Key) (hvs : vs ≠ [])
    (hm : keyGetMeta k m = none) :
    (elektraMetaArrayToKS (vs.foldl (fun k v => elektraMetaArrayAdd k m v) k) m).map
        (List.map Prod.snd)
      = some vs := by
  have hp := foldAdd_parent m vs k hm
  rw [if_neg hvs] at hp
  have hlen : vs.length - 1 + 1 = vs.length := by
    have : vs.length ≠ 0 := by simpa using hvs
    omega
  rw [metaArrayToKS_of_parent _ m (vs.length - 1) hp, hlen]
  rw [Option.map_some']
  congr 1
  rw [List.filterMap_congr
    (g := fun i => some (m ++ '/' :: arrayLabel i, vs.getD i [])) ?_]
  · rw [show (fun i => some (m ++ '/' :: arrayLabel i, vs.getD i []))
        = some ∘ (fun i => (m ++ '/' :: arrayLabel i, vs.getD i [])) from rfl,
      List.filterMap_eq_map, List.map_map]
    apply List.ext_getElem (by simp)
    intro i h1 h2
    simp only [List.getElem_map, List.getElem_range, Function.comp]
    exact List.getD_eq_getElem vs [] h2
  · intro i hi
    rw [foldAdd_elem m vs k hm i (by simpa using hi)]
    rfl

/-- The separator-splitting function never returns an empty segment list. -/
theorem splitSep_ne_nil (sep : Char) : ∀ s : Str, splitSep sep s ≠ [] := by
  intro s
  induction s with
  | nil => simp [splitSep]
  | cons c rest ih =>
    by_cases h : c = sep
    · simp [splitSep, h]
    · simp only [splitSep, if_neg h]
      cases hs : splitSep sep rest with
      | nil => simp
      | cons seg segs => simp

/-- Claim C3 (amended): when an environment variable is consumed for a spec
key whose last segment is `#`, a raw value containing at least one platform
separator is split at every separator, in order, preserving empty segments
between separators and a trailing empty segment, and written as proc
elements `#0`, `#1`, …; a raw value containing no separator at all is not
written at all — no proc key is created and the write reports the skip
code 1. -/
theorem c3_env_split_amended :
    ∀ (sep : Char) (ks : KeySet) (kw ek : Key),
      (procNameOf kw.name).getLast? = some (str "#") →
      ksLookupByName ks ((procNameOf kw.name).dropLast) = none →
      (∀ i, ksLookupByName ks ((procNameOf kw.name).dropLast ++ [arrayLabel i]) = none) →
      (ek.value.any (fun c => c = sep) = true →
        addProcKey ks kw (some (splitEnvValueSep sep ek))
          = (0, ks ++ procElems ((procNameOf kw.name).dropLast) 0 (splitSep sep ek.value)
              ++ [⟨(procNameOf kw.name).dropLast,
                    argParentLabel (splitSep sep ek.value).length, []⟩]))
      ∧ (ek.value.any (fun c => c = sep) = false →
        addProcKey ks kw (some (splitEnvValueSep sep ek)) = (1, ks)) := by
  intro sep ks kw ek h1 h3 h4
  constructor
  · intro hany
    have hsplit : splitEnvValueSep sep ek
        = (splitSep sep ek.value).foldl
            (fun k seg => elektraMetaArrayAdd k (str "values") seg) ⟨ek.name, [], []⟩ := by
      unfold splitEnvValueSep
      rw [if_pos hany]
    have hround := metaArrayToKS_foldAdd (str "values") (splitSep sep ek.value)
      ⟨ek.name, [], []⟩ (splitSep_ne_nil sep _) (by rfl)
    rw [← hsplit] at hround
    obtain ⟨l, hl, hlv⟩ := Option.map_eq_some'.mp hround
    have hlen : l.length = (splitSep sep ek.value).length := by
      rw [← hlv]
      simp
    rw [addProcKey_array_write ks kw (splitEnvValueSep sep ek) l h1 hl h3 h4, hlv, hlen]
  · intro hany
    have hsplit : splitEnvValueSep sep ek = ⟨ek.name, ek.value, []⟩ := by
      unfold splitEnvValueSep
      rw [if_neg (by simp [hany])]
    have hnone : elektraMetaArrayToKS (splitEnvValueSep sep ek) (str "values") = none := by
      rw [hsplit]
      rfl
    exact addProcKey_array_skip ks kw _ h1 hnone h3

/-- Claim C3 counterexample: the spec key spec/path/# is bound to PATH and
the raw value `/a` contains no separator; the claim demands a one-element
list written as `#0`, but the resolver succeeds without writing any proc
key at all. -/
theorem c3_counterexample :
    (elektraGetOpts [⟨[str "spec", str "path", str "#"], [], [(str "env", str "PATH")]⟩]
        [str "prog"] [str "PATH=/a"] emptyKey).ret = 0
    ∧ ksLookupByName (elektraGetOpts
        [⟨[str "spec", str "path", str "#"], [], [(str "env", str "PATH")]⟩]
        [str "prog"] [str "PATH=/a"] emptyKey).ks [str "proc", str "path"] = none
    ∧ ksLookupByName (elektraGetOpts
        [⟨[str "spec", str "path", str "#"], [], [(str "env", str "PATH")]⟩]
        [str "prog"] [str "PATH=/a"] emptyKey).ks [str "proc", str "path", str "#0"]
      = none := by
  exact ⟨by decide, by decide, by decide⟩

/-- Claim C3 witness: the amended theorem at the concrete separated value
`/a:/b:` (split into three segments with a trailing empty one) and at the
concrete separator-free value `abc` (skipped). -/
theorem c3_env_split_amended_witness :
    addProcKey [] ⟨[str "spec", str "path", str "#"], [], []⟩
        (some (splitEnvValueSep ':' ⟨[[], str "PATH"], str "/a:/b:", []⟩))
      = (0, ([] : KeySet)
          ++ procElems [str "proc", str "path"] 0 (splitSep ':' (str "/a:/b:"))
          ++ [⟨[str "proc", str "path"],
                argParentLabel (splitSep ':' (str "/a:/b:")).length, []⟩])
    ∧ addProcKey [] ⟨[str "spec", str "path", str "#"], [], []⟩
        (some (splitEnvValueSep ':' ⟨[[], str "X"], str "abc", []⟩)) = (1, []) := by
  refine ⟨(c3_env_split_amended ':' []
      ⟨[str "spec", str "path", str "#"], [], []⟩ ⟨[[], str "PATH"], str "/a:/b:", []⟩
      (by decide) (by decide) (fun i => by simp [ksLookupByName])).1 (by decide),
    (c3_env_split_amended ':' []
      ⟨[str "spec", str "path", str "#"], [], []⟩ ⟨[[], str "X"], str "abc", []⟩
      (by decide) (by decide) (fun i => by simp [ksLookupByName])).2 (by decide)⟩

/-- Splitting a long-option token at the first `=`: the part before. -/
theorem takeWhile_eq_sep (v : Str) : ∀ nm : Str, (∀ c ∈ nm, c ≠ '=') →
    (nm ++ '=' :: v).takeWhile (fun c => c ≠ '=') = nm := by
  intro nm h
  induction nm with
  | nil => simp [List.takeWhile]
  | cons c cs ih =>
    have hc : c ≠ '=' := h c (by simp)
    simp only [List.cons_append, List.takeWhile_cons, decide_eq_true_eq]
    rw [if_pos hc, ih (fun c2 hc2 => h c2 (by simp [hc2]))]

/-- Splitting a long-option token at the first `=`: the part from `=` on. -/
theorem dropWhile_eq_sep (v : Str) : ∀ nm : Str, (∀ c ∈ nm, c ≠ '=') →
    (nm ++ '=' :: v).dropWhile (fun c => c ≠ '=') = '=' :: v := by
  intro nm h
  induction nm with
  | nil => simp [List.dropWhile]
  | cons c cs ih =>
    have hc : c ≠ '=' := h c (by simp)
    simp only [List.cons_append, List.dropWhile_cons, decide_eq_true_eq]
    rw [if_pos hc, ih (fun c2 hc2 => h c2 (by simp [hc2]))]

/-- A token with an attached value contains the separator. -/
theorem any_eq_sep (v : Str) (nm : Str) :
    ((nm ++ '=' :: v).any (fun c => c = '=')) = true := by
  simp

/-- A separator-free name is preserved by the split. -/
theorem takeWhile_eq_self_sep : ∀ nm : Str, (∀ c ∈ nm, c ≠ '=') →
    nm.takeWhile (fun c => c ≠ '=') = nm := by
  intro nm h
  induction nm with
  | nil => simp
  | cons c cs ih =>
    have hc : c ≠ '=' := h c (by simp)
    simp only [List.takeWhile_cons, decide_eq_true_eq]
    rw [if_pos hc, ih (fun c2 hc2 => h c2 (by simp [hc2]))]

/-- A separator-free name yields no attached value. -/
theorem any_eq_sep_false (nm : Str) (h : ∀ c ∈ nm, c ≠ '=') :
    (nm.any (fun c => c = '=')) = false := by
  simp only [List.any_eq_false, decide_eq_true_eq]
  exact h

/-- Claim C8: for a long option with hasarg = optional, an attached `=value`
(including the empty attachment of `--name=`) is used as the occurrence
value and the next token is not consumed; without an attached value the
option's flagvalue is recorded, again without consuming the next token;
with hasarg = required, `--name=` yields the empty string as the argument
— so `--name=` never yields the flagvalue. -/
theorem c8_long_option_values
    (optionsSpec options : KeySet) (nm : Str) (e : Key) (rest : List Str)
    (hnoeq : ∀ c ∈ nm, c ≠ '=')
    (he : ksLookupByName optionsSpec (longOptName nm) = some e)
    (hkind : ¬((keyGetMetaString e (str "kind")).getD [] = str "array"))
    (hprior : ksLookupByName options (longOptName nm) = none) :
    (∀ v : Str, keyGetMetaString e (str "hasarg") = some (str "optional") →
      ∃ occ : Key, parseLongOption optionsSpec options ('-' :: '-' :: (nm ++ '=' :: v)) rest
          = .ok (ksAppendKey options occ, false)
        ∧ occ.value = v ∧ occ.name = longOptName nm)
    ∧ (∀ fv : Str, keyGetMetaString e (str "hasarg") = some (str "optional") →
        keyGetMetaString e (str "flagvalue") = some fv →
      ∃ occ : Key, parseLongOption optionsSpec options ('-' :: '-' :: nm) rest
          = .ok (ksAppendKey options occ, false)
        ∧ occ.value = fv ∧ occ.name = longOptName nm)
    ∧ (keyGetMetaString e (str "hasarg") = some (str "required") →
      ∃ occ : Key, parseLongOption optionsSpec options ('-' :: '-' :: (nm ++ '=' :: [])) rest
          = .ok (ksAppendKey options occ, false)
        ∧ occ.value = [] ∧ occ.name = longOptName nm) := by
  refine ⟨?_, ?_, ?_⟩
  · intro v hha
    refine ⟨⟨longOptName nm, v, [(str "key", (keyGetMetaString e (str "key")).getD [])]⟩,
      ?_, rfl, rfl⟩
    simp only [parseLongOption, List.drop_succ_cons, List.drop_zero,
      takeWhile_eq_sep v nm hnoeq, dropWhile_eq_sep v nm hnoeq, any_eq_sep,
      he, hprior, hha, List.tail_cons]
    simp only [if_true, Option.isSome_none, Bool.false_eq_true, false_and, if_false,
      Option.getD_some, Option.getD_none]
    simp only [setOption, decide_eq_false hkind, Bool.false_eq_true, if_false, keySetString,
      Option.getD_none]
    split <;> rfl
  · intro fv hha hfv
    refine ⟨⟨longOptName nm, fv, [(str "key", (keyGetMetaString e (str "key")).getD [])]⟩,
      ?_, rfl, rfl⟩
    simp only [parseLongOption, List.drop_succ_cons, List.drop_zero,
      takeWhile_eq_self_sep nm hnoeq, any_eq_sep_false nm hnoeq,
      he, hprior, hha, hfv]
    simp only [if_true, Option.isSome_none, Bool.false_eq_true, false_and, if_false,
      Option.getD_some, Option.getD_none]
    simp only [setOption, decide_eq_false hkind, Bool.false_eq_true, if_false, keySetString,
      Option.getD_none]
    split <;> first | rfl | (rename_i hcontra; exact absurd hcontra (by decide))
  · intro hha
    refine ⟨⟨longOptName nm, [], [(str "key", (keyGetMetaString e (str "key")).getD [])]⟩,
      ?_, rfl, rfl⟩
    simp only [parseLongOption, List.drop_succ_cons, List.drop_zero,
      takeWhile_eq_sep [] nm hnoeq, dropWhile_eq_sep [] nm hnoeq, any_eq_sep,
      he, hprior, hha, List.tail_cons]
    simp only [if_true, Option.isSome_none, Bool.false_eq_true, false_and, if_false,
      Option.getD_some, Option.getD_none]
    simp only [setOption, decide_eq_false hkind, Bool.false_eq_true, if_false, keySetString,
      Option.getD_none]

/-- Claim C8 witness: the attached-value case at the concrete compiled table
of the `--out` option with an optional argument. -/
theorem c8_long_option_values_witness :
    ∃ occ : Key,
      parseLongOption
          [⟨longOptName (str "out"), [],
            [(str "key", str "spec/out"), (str "hasarg", str "optional"),
             (str "kind", str "single"), (str "flagvalue", str "STDOUT")]⟩]
          [] ('-' :: '-' :: (str "out" ++ '=' :: str "file")) []
        = .ok (ksAppendKey [] occ, false)
      ∧ occ.value = str "file" ∧ occ.name = longOptName (str "out") :=
  (c8_long_option_values
    [⟨longOptName (str "out"), [],
      [(str "key", str "spec/out"), (str "hasarg", str "optional"),
       (str "kind", str "single"), (str "flagvalue", str "STDOUT")]⟩]
    [] (str "out")
    ⟨longOptName (str "out"), [],
      [(str "key", str "spec/out"), (str "hasarg", str "optional"),
       (str "kind", str "single"), (str "flagvalue", str "STDOUT")]⟩
    [] (by decide) (by decide) (by decide) (by decide)).1 (str "file") (by decide)

/-- Claim C6: an option compiled with kind = single cannot be repeated: a
second occurrence — via a short or a long token — is an illegal-use error,
and the concrete run of `-vvv` against `spec/verbose` with `opt=v`,
`opt/arg=none` fails with that error. -/
theorem c6_single_repeat_error :
    (∀ (optionsSpec options : KeySet) (c : Char) (e : Key) (cs : Str) (rest : List Str),
      ksLookupByName optionsSpec (shortOptName c) = some e →
      ¬((keyGetMetaString e (str "kind")).getD [] = str "array") →
      (ksLookupByName options (shortOptName c)).isSome = true →
      parseShortOptions optionsSpec (c :: cs) rest options = .error .illegalUse)
    ∧ (∀ (optionsSpec options : KeySet) (nm : Str) (e : Key) (rest : List Str),
      (∀ ch ∈ nm, ch ≠ '=') →
      ksLookupByName optionsSpec (longOptName nm) = some e →
      ¬((keyGetMetaString e (str "kind")).getD [] = str "array") →
      (ksLookupByName options (longOptName nm)).isSome = true →
      parseLongOption optionsSpec options ('-' :: '-' :: nm) rest = .error .illegalUse)
    ∧ elektraGetOpts
        [⟨[str "spec", str "verbose"], [], [(str "opt", str "v"), (str "opt/arg", str "none")]⟩]
        [str "prog", str "-vvv"] [] emptyKey
      = ⟨-1,
          [⟨[str "spec", str "verbose"], [], [(str "opt", str "v"), (str "opt/arg", str "none")]⟩],
          some .illegalUse, none, none⟩ := by
  refine ⟨?_, ?_, by decide⟩
  · intro os options c e cs rest he hkind hocc
    obtain ⟨o, ho⟩ := Option.isSome_iff_exists.mp hocc
    simp only [parseShortOptions, he, ho]
    rw [if_pos ⟨by simp, hkind⟩]
  · intro os options nm e rest hnoeq he hkind hocc
    obtain ⟨o, ho⟩ := Option.isSome_iff_exists.mp hocc
    simp only [parseLongOption, List.drop_succ_cons, List.drop_zero,
      takeWhile_eq_self_sep nm hnoeq, any_eq_sep_false nm hnoeq, he, ho]
    simp only [Bool.false_eq_true, if_false]
    rw [if_pos ⟨by simp, hkind⟩]

/-- Claim C6 witness: the short-repetition error at a concrete table in
which `-v` is a single option and an occurrence is already recorded. -/
theorem c6_single_repeat_error_witness :
    parseShortOptions
        [⟨shortOptName 'v', [],
          [(str "key", str "spec/verbose"), (str "hasarg", str "none"),
           (str "kind", str "single"), (str "flagvalue", str "1")]⟩]
        [('v')] [] [⟨shortOptName 'v', str "1", []⟩]
      = .error .illegalUse :=
  c6_single_repeat_error.1
    [⟨shortOptName 'v', [],
      [(str "key", str "spec/verbose"), (str "hasarg", str "none"),
       (str "kind", str "single"), (str "flagvalue", str "1")]⟩]
    [⟨shortOptName 'v', str "1", []⟩] ('v')
    ⟨shortOptName 'v', [],
      [(str "key", str "spec/verbose"), (str "hasarg", str "none"),
       (str "kind", str "single"), (str "flagvalue", str "1")]⟩
    [] [] (by decide) (by decide) (by decide)

/-- Claim C2 (amended): when the specification compiles and argv parses
without error, a recorded occurrence of `-h` or `--help` makes the resolver
return 1 with the target key set untouched; a `-h` token after `--` is
collected as a positional instead and does not trigger help, as the
concrete run of `prog -- -h` shows (it returns 0). -/
theorem c2_help_mode_amended :
    (∀ (ks : KeySet) (argv envp : List Str) (errorKey : Key) (sp : Spec) (opts : KeySet),
      processSpec ks = .ok sp →
      parseArgs sp.options argv errorKey = .ok opts →
      ((ksLookupByName opts (shortOptName 'h')).isSome = true ∨
        (ksLookupByName opts (longOptName (str "help"))).isSome = true) →
      (elektraGetOpts ks argv envp errorKey).ret = 1
      ∧ (elektraGetOpts ks argv envp errorKey).ks = ks)
    ∧ (elektraGetOpts [] [str "prog", str "--", str "-h"] [] emptyKey
        = ⟨0, [], none, none, none⟩)
    ∧ parseArgs [helpShortKey, helpLongKey] [str "prog", str "--", str "-h"] emptyKey
      = .ok [⟨argEntryName 0, str "-h", []⟩, ⟨[[], str "args"], arrayLabel 0, []⟩] := by
  refine ⟨?_, by decide, by decide⟩
  intro ks argv envp ek sp opts h1 h2 h3
  cases hsh : ksLookupByName opts (shortOptName 'h') with
  | some k => constructor <;> simp [elektraGetOpts, h1, h2, hsh]
  | none =>
    rcases h3 with h3 | h3
    · rw [hsh] at h3
      simp at h3
    · obtain ⟨k, hk⟩ := Option.isSome_iff_exists.mp h3
      constructor <;> simp [elektraGetOpts, h1, h2, hsh, hk]

/-- Presence of a name in a key set is preserved by appending. -/
theorem lookup_isSome_ksAppendKey (ks : KeySet) (k : Key) (n : List Str)
    (h : (ksLookupByName ks n).isSome = true) :
    (ksLookupByName (ksAppendKey ks k) n).isSome = true := by
  by_cases hn : n = k.name
  · subst hn
    rw [ksLookupByName_ksAppendKey_self]
    rfl
  · rw [ksLookupByName_ksAppendKey_ne ks k n hn]
    exact h

/-- What processShortOptSpec does to the option table: nothing when the slot
has no short character, otherwise it inserts the fresh compiled entry. -/
theorem processShortOptSpec_options (spec : Spec) (od : OptionData) (kw : Option Key)
    (line : Str) (r : Spec × Option Key × Str)
    (h : processShortOptSpec spec od kw line = .ok r) :
    (shortAt od.specKey od.metaKey = none ∧ r.1.options = spec.options)
    ∨ (∃ c, shortAt od.specKey od.metaKey = some c
        ∧ ksLookupByName spec.options (shortOptName c) = none
        ∧ r.1.options = ksAppendKey spec.options
            ⟨shortOptName c, [],
              [(str "key", keyNameStr od.specKey.name), (str "hasarg", od.hasArg),
               (str "kind", od.kind), (str "flagvalue", od.flagValue)]⟩) := by
  unfold processShortOptSpec at h
  split at h
  · rename_i hmeta
    left
    cases h
    exact ⟨by simp [shortAt, hmeta], rfl⟩
  · rename_i s hmeta
    split at h
    · left
      cases h
      exact ⟨by simp [shortAt, hmeta], rfl⟩
    · rename_i c cs
      split at h
      · cases h
      · split at h
        · cases h
        · split at h
          · cases h
          · rename_i hc1 hc2 hdup
            right
            refine ⟨c, by simp [shortAt, hmeta], by simpa using hdup, ?_⟩
            cases h
            by_cases hh : od.hidden <;> simp [hh]

/-- What processLongOptSpec does to the option table: nothing when the slot
has no long name, otherwise it inserts the fresh compiled entry. -/
theorem processLongOptSpec_options (spec : Spec) (od : OptionData) (kw : Option Key)
    (line : Str) (r : Spec × Option Key × Str)
    (h : processLongOptSpec spec od kw line = .ok r) :
    (longAt od.specKey od.metaKey = none ∧ r.1.options = spec.options)
    ∨ (∃ nm, longAt od.specKey od.metaKey = some nm
        ∧ ksLookupByName spec.options (longOptName nm) = none
        ∧ r.1.options = ksAppendKey spec.options
            ⟨longOptName nm, [],
              [(str "key", keyNameStr od.specKey.name), (str "hasarg", od.hasArg),
               (str "kind", od.kind), (str "flagvalue", od.flagValue)]⟩) := by
  unfold processLongOptSpec at h
  split at h
  · rename_i hmeta
    left
    cases h
    exact ⟨by simp [longAt, hmeta], rfl⟩
  · rename_i nm hmeta
    split at h
    · cases h
    · split at h
      · cases h
      · rename_i hhelp hdup
        right
        refine ⟨nm, by simp [longAt, hmeta], by simpa using hdup, ?_⟩
        cases h
        by_cases hh : od.hidden <;> simp [hh]

/-- readOptionData returns the spec key and slot name it was given. -/
theorem readOptionData_fields (k : Key) (m : Str) (od : OptionData)
    (h : readOptionData k m = .ok od) : od.specKey = k ∧ od.metaKey = m := by
  simp only [readOptionData] at h
  split at h
  · cases h
    exact ⟨rfl, rfl⟩
  · split at h
    · cases h
    · cases h
      exact ⟨rfl, rfl⟩

/-- The environment-variable loop only appends to the used-variable set. -/
theorem processEnvVarsLoop_mono : ∀ (l : List (Str × Str)) (used : KeySet) (k : Key)
    (kw : Option Key) (r : KeySet × Option Key) (n : List Str),
    processEnvVarsLoop used k kw l = .ok r →
    (ksLookupByName used n).isSome = true → (ksLookupByName r.1 n).isSome = true := by
  intro l
  induction l with
  | nil =>
    intro used k kw r n h hp
    cases h
    exact hp
  | cons p rest ih =>
    intro used k kw r n h hp
    obtain ⟨a, envVar⟩ := p
    simp only [processEnvVarsLoop] at h
    split at h
    · cases h
    · exact ih _ _ _ _ _ h (lookup_isSome_ksAppendKey _ _ _ hp)

/-- Every environment variable of a successfully processed list is recorded
in the used-variable set. -/
theorem processEnvVarsLoop_insert : ∀ (l : List (Str × Str)) (used : KeySet) (k : Key)
    (kw : Option Key) (r : KeySet × Option Key) (e : Str),
    processEnvVarsLoop used k kw l = .ok r →
    e ∈ l.map Prod.snd → (ksLookupByName r.1 [[], e]).isSome = true := by
  intro l
  induction l with
  | nil =>
    intro used k kw r e _ he
    simp at he
  | cons p rest ih =>
    intro used k kw r e h he
    obtain ⟨a, envVar⟩ := p
    simp only [processEnvVarsLoop] at h
    split at h
    · cases h
    · by_cases hee : e = envVar
      · subst hee
        refine processEnvVarsLoop_mono rest _ _ _ _ _ h ?_
        rw [show ([[], e] : List Str)
            = (⟨[[], e], [], [(str "key", keyNameStr k.name)]⟩ : Key).name from rfl,
          ksLookupByName_ksAppendKey_self]
        rfl
      · have : e ∈ rest.map Prod.snd := by
          simp only [List.map_cons, List.mem_cons] at he
          exact he.resolve_left hee
        exact ih _ _ _ _ _ h this

/-- Processing an environment variable that is already recorded fails. -/
theorem processEnvVarsLoop_conflict : ∀ (l : List (Str × Str)) (used : KeySet) (k : Key)
    (kw : Option Key) (e : Str) (r : KeySet × Option Key),
    e ∈ l.map Prod.snd →
    (ksLookupByName used [[], e]).isSome = true →
    processEnvVarsLoop used k kw l ≠ .ok r := by
  intro l
  induction l with
  | nil =>
    intro used k kw e r he
    simp at he
  | cons p rest ih =>
    intro used k kw e r he hp h
    obtain ⟨a, envVar⟩ := p
    simp only [processEnvVarsLoop] at h
    split at h
    · cases h
    · rename_i hfresh
      by_cases hee : e = envVar
      · subst hee
        exact hfresh hp
      · have hmem : e ∈ rest.map Prod.snd := by
          simp only [List.map_cons, List.mem_cons] at he
          exact he.resolve_left hee
        exact ih _ _ _ _ _ hmem (lookup_isSome_ksAppendKey _ _ _ hp) h

/-- A successfully processed environment-variable list has no duplicates. -/
theorem processEnvVarsLoop_nodup : ∀ (l : List (Str × Str)) (used : KeySet) (k : Key)
    (kw : Option Key) (r : KeySet × Option Key),
    processEnvVarsLoop used k kw l = .ok r → (l.map Prod.snd).Nodup := by
  intro l
  induction l with
  | nil => intro used k kw r _; simp
  | cons p rest ih =>
    intro used k kw r h
    obtain ⟨a, envVar⟩ := p
    have h0 := h
    simp only [processEnvVarsLoop] at h0
    split at h0
    · cases h0
    · refine List.Nodup.cons ?_ (ih _ _ _ _ h0)
      intro hmem
      refine processEnvVarsLoop_conflict rest _ _ _ envVar r hmem ?_ h0
      rw [show ([[], envVar] : List Str)
          = (⟨[[], envVar], [], [(str "key", keyNameStr k.name)]⟩ : Key).name from rfl,
        ksLookupByName_ksAppendKey_self]
      rfl

/-- The option-slot loop only appends to the option table. -/
theorem processOptionsLoop_mono : ∀ (places : List Str) (spec : Spec) (k : Key)
    (kw : Option Key) (s l : Str) (r : Spec × Option Key × Str × Str) (n : List Str),
    processOptionsLoop spec k kw s l places = .ok r →
    (ksLookupByName spec.options n).isSome = true →
    (ksLookupByName r.1.options n).isSome = true := by
  intro places
  induction places with
  | nil =>
    intro spec k kw s l r n h hp
    cases h
    exact hp
  | cons m rest ih =>
    intro spec k kw s l r n h hp
    unfold processOptionsLoop at h
    split at h
    · cases h
    · rename_i od hod
      split at h
      · cases h
      · rename_i spec1 kw1 sLine1 hshort
        split at h
        · cases h
        · rename_i spec2 kw2 lLine2 hlong
          have hp1 : (ksLookupByName spec1.options n).isSome = true := by
            rcases processShortOptSpec_options _ _ _ _ _ hshort with ⟨_, he⟩ | ⟨c, _, _, he⟩
            · rw [show spec1 = (spec1, kw1, sLine1).1 from rfl, he]
              exact hp
            · rw [show spec1 = (spec1, kw1, sLine1).1 from rfl, he]
              exact lookup_isSome_ksAppendKey _ _ _ hp
          have hp2 : (ksLookupByName spec2.options n).isSome = true := by
            rcases processLongOptSpec_options _ _ _ _ _ hlong with ⟨_, he⟩ | ⟨nm, _, _, he⟩
            · rw [show spec2 = (spec2, kw2, lLine2).1 from rfl, he]
              exact hp1
            · rw [show spec2 = (spec2, kw2, lLine2).1 from rfl, he]
              exact lookup_isSome_ksAppendKey _ _ _ hp1
          exact ih _ _ _ _ _ _ _ h hp2

/-- A successfully processed slot records its short binding in the table. -/
theorem processOptionsLoop_insert_short : ∀ (places : List Str) (spec : Spec) (k : Key)
    (kw : Option Key) (s l : Str) (r : Spec × Option Key × Str × Str) (m : Str) (c : Char),
    processOptionsLoop spec k kw s l places = .ok r →
    m ∈ places → shortAt k m = some c →
    (ksLookupByName r.1.options (shortOptName c)).isSome = true := by
  intro places
  induction places with
  | nil =>
    intro spec k kw s l r m c _ hm
    simp at hm
  | cons m0 rest ih =>
    intro spec k kw s l r m c h hm hsa
    unfold processOptionsLoop at h
    split at h
    · cases h
    · rename_i od hod
      obtain ⟨hk, hmk⟩ := readOptionData_fields _ _ _ hod
      split at h
      · cases h
      · rename_i spec1 kw1 sLine1 hshort
        split at h
        · cases h
        · rename_i spec2 kw2 lLine2 hlong
          by_cases hmm : m = m0
          · subst hmm
            have hp1 : (ksLookupByName spec1.options (shortOptName c)).isSome = true := by
              rcases processShortOptSpec_options _ _ _ _ _ hshort with ⟨hn, _⟩ | ⟨c2, hc2, _, he⟩
              · rw [hk, hmk, hsa] at hn
                cases hn
              · rw [hk, hmk, hsa] at hc2
                cases hc2
                rw [show spec1 = (spec1, kw1, sLine1).1 from rfl, he,
                  show shortOptName c
                    = (⟨shortOptName c, [],
                        [(str "key", keyNameStr od.specKey.name), (str "hasarg", od.hasArg),
                         (str "kind", od.kind), (str "flagvalue", od.flagValue)]⟩ : Key).name
                    from rfl,
                  ksLookupByName_ksAppendKey_self]
                rfl
            have hp2 : (ksLookupByName spec2.options (shortOptName c)).isSome = true := by
              rcases processLongOptSpec_options _ _ _ _ _ hlong with ⟨_, he⟩ | ⟨nm, _, _, he⟩
              · rw [show spec2 = (spec2, kw2, lLine2).1 from rfl, he]
                exact hp1
              · rw [show spec2 = (spec2, kw2, lLine2).1 from rfl, he]
                exact lookup_isSome_ksAppendKey _ _ _ hp1
            exact processOptionsLoop_mono _ _ _ _ _ _ _ _ h hp2
          · have hm2 : m ∈ rest := by
              rcases List.mem_cons.mp hm with hc | hc
              · exact absurd hc hmm
              · exact hc
            exact ih _ _ _ _ _ _ _ _ h hm2 hsa

/-- Processing a slot whose short character is already in the table fails. -/
theorem processOptionsLoop_conflict_short : ∀ (places : List Str) (spec : Spec) (k : Key)
    (kw : Option Key) (s l : Str) (m : Str) (c : Char) (r : Spec × Option Key × Str × Str),
    m ∈ places → shortAt k m = some c →
    (ksLookupByName spec.options (shortOptName c)).isSome = true →
    processOptionsLoop spec k kw s l places ≠ .ok r := by
  intro places
  induction places with
  | nil =>
    intro spec k kw s l m c r hm
    simp at hm
  | cons m0 rest ih =>
    intro spec k kw s l m c r hm hsa hp h
    unfold processOptionsLoop at h
    split at h
    · cases h
    · rename_i od hod
      obtain ⟨hk, hmk⟩ := readOptionData_fields _ _ _ hod
      split at h
      · cases h
      · rename_i spec1 kw1 sLine1 hshort
        split at h
        · cases h
        · rename_i spec2 kw2 lLine2 hlong
          by_cases hmm : m = m0
          · subst hmm
            rcases processShortOptSpec_options _ _ _ _ _ hshort with ⟨hn, _⟩ | ⟨c2, hc2, hfresh, _⟩
            · rw [hk, hmk, hsa] at hn
              cases hn
            · rw [hk, hmk, hsa] at hc2
              cases hc2
              rw [hfresh] at hp
              cases hp
          · have hm2 : m ∈ rest := by
              rcases List.mem_cons.mp hm with hc | hc
              · exact absurd hc hmm
              · exact hc
            have hp1 : (ksLookupByName spec1.options (shortOptName c)).isSome = true := by
              rcases processShortOptSpec_options _ _ _ _ _ hshort with ⟨_, he⟩ | ⟨c2, _, _, he⟩
              · rw [show spec1 = (spec1, kw1, sLine1).1 from rfl, he]
                exact hp
              · rw [show spec1 = (spec1, kw1, sLine1).1 from rfl, he]
                exact lookup_isSome_ksAppendKey _ _ _ hp
            have hp2 : (ksLookupByName spec2.options (shortOptName c)).isSome = true := by
              rcases processLongOptSpec_options _ _ _ _ _ hlong with ⟨_, he⟩ | ⟨nm, _, _, he⟩
              · rw [show spec2 = (spec2, kw2, lLine2).1 from rfl, he]
                exact hp1
              · rw [show spec2 = (spec2, kw2, lLine2).1 from rfl, he]
                exact lookup_isSome_ksAppendKey _ _ _ hp1
            exact ih _ _ _ _ _ _ _ _ hm2 hsa hp2 h

/-- The short characters of a successfully processed slot list are unique. -/
theorem processOptionsLoop_nodup_short : ∀ (places : List Str) (spec : Spec) (k : Key)
    (kw : Option Key) (s l : Str) (r : Spec × Option Key × Str × Str),
    processOptionsLoop spec k kw s l places = .ok r →
    (places.filterMap (shortAt k)).Nodup := by
  intro places
  induction places with
  | nil =>
    intro spec k kw s l r _
    simp
  | cons m0 rest ih =>
    intro spec k kw s l r h
    have h0 := h
    unfold processOptionsLoop at h0
    split at h0
    · cases h0
    · rename_i od hod
      obtain ⟨hk, hmk⟩ := readOptionData_fields _ _ _ hod
      split at h0
      · cases h0
      · rename_i spec1 kw1 sLine1 hshort
        split at h0
        · cases h0
        · rename_i spec2 kw2 lLine2 hlong
          cases hsa : shortAt k m0 with
          | none =>
            rw [List.filterMap_cons_none hsa]
            exact ih _ _ _ _ _ _ h0
          | some c =>
            rw [List.filterMap_cons_some hsa]
            refine List.Nodup.cons ?_ (ih _ _ _ _ _ _ h0)
            intro hcmem
            obtain ⟨m2, hm2, hsa2⟩ := List.mem_filterMap.mp hcmem
            have hp1 : (ksLookupByName spec1.options (shortOptName c)).isSome = true := by
              rcases processShortOptSpec_options _ _ _ _ _ hshort with ⟨hn, _⟩ | ⟨c2, hc2, _, he⟩
              · rw [hk, hmk, hsa] at hn
                cases hn
              · rw [hk, hmk, hsa] at hc2
                cases hc2
                rw [show spec1 = (spec1, kw1, sLine1).1 from rfl, he,
                  show shortOptName c
                    = (⟨shortOptName c, [],
                        [(str "key", keyNameStr od.specKey.name), (str "hasarg", od.hasArg),
                         (str "kind", od.kind), (str "flagvalue", od.flagValue)]⟩ : Key).name
                    from rfl,
                  ksLookupByName_ksAppendKey_self]
                rfl
            have hp2 : (ksLookupByName spec2.options (shortOptName c)).isSome = true := by
              rcases processLongOptSpec_options _ _ _ _ _ hlong with ⟨_, he⟩ | ⟨nm, _, _, he⟩
              · rw [show spec2 = (spec2, kw2, lLine2).1 from rfl, he]
                exact hp1
              · rw [show spec2 = (spec2, kw2, lLine2).1 from rfl, he]
                exact lookup_isSome_ksAppendKey _ _ _ hp1
            exact processOptionsLoop_conflict_short rest _ _ _ _ _ m2 c r hm2 hsa2 hp2 h0

/-- A successfully processed slot records its long binding in the table. -/
theorem processOptionsLoop_insert_long : ∀ (places : List Str) (spec : Spec) (k : Key)
    (kw : Option Key) (s l : Str) (r : Spec × Option Key × Str × Str) (m : Str) (nm : Str),
    processOptionsLoop spec k kw s l places = .ok r →
    m ∈ places → longAt k m = some nm →
    (ksLookupByName r.1.options (longOptName nm)).isSome = true := by
  intro places
  induction places with
  | nil =>
    intro spec k kw s l r m nm _ hm
    simp at hm
  | cons m0 rest ih =>
    intro spec k kw s l r m nm h hm hla
    unfold processOptionsLoop at h
    split at h
    · cases h
    · rename_i od hod
      obtain ⟨hk, hmk⟩ := readOptionData_fields _ _ _ hod
      split at h
      · cases h
      · rename_i spec1 kw1 sLine1 hshort
        split at h
        · cases h
        · rename_i spec2 kw2 lLine2 hlong
          by_cases hmm : m = m0
          · subst hmm
            have hp2 : (ksLookupByName spec2.options (longOptName nm)).isSome = true := by
              rcases processLongOptSpec_options _ _ _ _ _ hlong with ⟨hn, _⟩ | ⟨nm2, hn2, _, he⟩
              · rw [hk, hmk, hla] at hn
                cases hn
              · rw [hk, hmk, hla] at hn2
                cases hn2
                rw [show spec2 = (spec2, kw2, lLine2).1 from rfl, he,
                  show longOptName nm
                    = (⟨longOptName nm, [],
                        [(str "key", keyNameStr od.specKey.name), (str "hasarg", od.hasArg),
                         (str "kind", od.kind), (str "flagvalue", od.flagValue)]⟩ : Key).name
                    from rfl,
                  ksLookupByName_ksAppendKey_self]
                rfl
            exact processOptionsLoop_mono _ _ _ _ _ _ _ _ h hp2
          · have hm2 : m ∈ rest := by
              rcases List.mem_cons.mp hm with hc | hc
              · exact absurd hc hmm
              · exact hc
            exact ih _ _ _ _ _ _ _ _ h hm2 hla

/-- Processing a slot whose long name is already in the table fails. -/
theorem processOptionsLoop_conflict_long : ∀ (places : List Str) (spec : Spec) (k : Key)
    (kw : Option Key) (s l : Str) (m : Str) (nm : Str) (r : Spec × Option Key × Str × Str),
    m ∈ places → longAt k m = some nm →
    (ksLookupByName spec.options (longOptName nm)).isSome = true →
    processOptionsLoop spec k kw s l places ≠ .ok r := by
  intro places
  induction places with
  | nil =>
    intro spec k kw s l m nm r hm
    simp at hm
  | cons m0 rest ih =>
    intro spec k kw s l m nm r hm hla hp h
    unfold processOptionsLoop at h
    split at h
    · cases h
    · rename_i od hod
      obtain ⟨hk, hmk⟩ := readOptionData_fields _ _ _ hod
      split at h
      · cases h
      · rename_i spec1 kw1 sLine1 hshort
        split at h
        · cases h
        · rename_i spec2 kw2 lLine2 hlong
          have hp1 : (ksLookupByName spec1.options (longOptName nm)).isSome = true := by
            rcases processShortOptSpec_options _ _ _ _ _ hshort with ⟨_, he⟩ | ⟨c2, _, _, he⟩
            · rw [show spec1 = (spec1, kw1, sLine1).1 from rfl, he]
              exact hp
            · rw [show spec1 = (spec1, kw1, sLine1).1 from rfl, he]
              exact lookup_isSome_ksAppendKey _ _ _ hp
          by_cases hmm : m = m0
          · subst hmm
            rcases processLongOptSpec_options _ _ _ _ _ hlong with ⟨hn, _⟩ | ⟨nm2, hn2, hfresh, _⟩
            · rw [hk, hmk, hla] at hn
              cases hn
            · rw [hk, hmk, hla] at hn2
              cases hn2
              rw [hfresh] at hp1
              cases hp1
          · have hm2 : m ∈ rest := by
              rcases List.mem_cons.mp hm with hc | hc
              · exact absurd hc hmm
              · exact hc
            have hp2 : (ksLookupByName spec2.options (longOptName nm)).isSome = true := by
              rcases processLongOptSpec_options _ _ _ _ _ hlong with ⟨_, he⟩ | ⟨nm2, _, _, he⟩
              · rw [show spec2 = (spec2, kw2, lLine2).1 from rfl, he]
                exact hp1
              · rw [show spec2 = (spec2, kw2, lLine2).1 from rfl, he]
                exact lookup_isSome_ksAppendKey _ _ _ hp1
            exact ih _ _ _ _ _ _ _ _ hm2 hla hp2 h

/-- The long names of a successfully processed slot list are unique. -/
theorem processOptionsLoop_nodup_long : ∀ (places : List Str) (spec : Spec) (k : Key)
    (kw : Option Key) (s l : Str) (r : Spec × Option Key × Str × Str),
    processOptionsLoop spec k kw s l places = .ok r →
    (places.filterMap (longAt k)).Nodup := by
  intro places
  induction places with
  | nil =>
    intro spec k kw s l r _
    simp
  | cons m0 rest ih =>
    intro spec k kw s l r h
    have h0 := h
    unfold processOptionsLoop at h0
    split at h0
    · cases h0
    · rename_i od hod
      obtain ⟨hk, hmk⟩ := readOptionData_fields _ _ _ hod
      split at h0
      · cases h0
      · rename_i spec1 kw1 sLine1 hshort
        split at h0
        · cases h0
        · rename_i spec2 kw2 lLine2 hlong
          cases hla : longAt k m0 with
          | none =>
            rw [List.filterMap_cons_none hla]
            exact ih _ _ _ _ _ _ h0
          | some nm =>
            rw [List.filterMap_cons_some hla]
            refine List.Nodup.cons ?_ (ih _ _ _ _ _ _ h0)
            intro hnmem
            obtain ⟨m2, hm2, hla2⟩ := List.mem_filterMap.mp hnmem
            have hp2 : (ksLookupByName spec2.options (longOptName nm)).isSome = true := by
              rcases processLongOptSpec_options _ _ _ _ _ hlong with ⟨hn, _⟩ | ⟨nm2, hn2, _, he⟩
              · rw [hk, hmk, hla] at hn
                cases hn
              · rw [hk, hmk, hla] at hn2
                cases hn2
                rw [show spec2 = (spec2, kw2, lLine2).1 from rfl, he,
                  show longOptName nm
                    = (⟨longOptName nm, [],
                        [(str "key", keyNameStr od.specKey.name), (str "hasarg", od.hasArg),
                         (str "kind", od.kind), (str "flagvalue", od.flagValue)]⟩ : Key).name
                    from rfl,
                  ksLookupByName_ksAppendKey_self]
                rfl
            exact processOptionsLoop_conflict_long rest _ _ _ _ _ m2 nm r hm2 hla2 hp2 h0

/-- What processOptions does to the compiler state: nothing when the key
has no option slots, otherwise exactly what the slot loop does. -/
theorem processOptions_parts (spec : Spec) (k : Key) (kw : Option Key)
    (r : Spec × Option Key) (h : processOptions spec k kw = .ok r) :
    (optPlaces k = none ∧ r.1 = spec)
    ∨ ∃ r1 : Spec × Option Key × Str × Str,
        processOptionsLoop spec k kw [] [] (specPlaces k) = .ok r1 ∧ r.1 = r1.1 := by
  simp only [processOptions] at h
  split at h
  · rename_i hpl
    left
    cases h
    exact ⟨hpl, rfl⟩
  · rename_i places hpl
    have hsp : specPlaces k = places := by simp [specPlaces, hpl]
    right
    rw [hsp]
    split at h
    · cases h
    · rename_i spec1 kw1 sLine lLine hloop
      refine ⟨_, hloop, ?_⟩
      split at h
      · cases h
        rfl
      · cases h
        rfl

/-- What processEnvVars does to the used-variable set: nothing when the key
declares no environment variables, otherwise what the variable loop does. -/
theorem processEnvVars_parts (used : KeySet) (k : Key) (kw : Option Key)
    (r : KeySet × Option Key) (h : processEnvVars used k kw = .ok r) :
    (envNamesOf k = [] ∧ r.1 = used)
    ∨ ∃ envs, envNamesOf k = envs.map Prod.snd
        ∧ processEnvVarsLoop used k kw envs = .ok r := by
  unfold processEnvVars at h
  split at h
  · rename_i hn
    left
    cases h
    exact ⟨by simp [envNamesOf, hn], rfl⟩
  · rename_i envs hn
    right
    exact ⟨envs, by simp [envNamesOf, hn], h⟩

/-- The args pass never changes the option table. -/
theorem processArgsPass_options (spec1 : Spec) (cur : Key) (kw : Option Key)
    (r : Spec × Option Key) (h : processArgsPass spec1 cur kw = .ok r) :
    r.1.options = spec1.options := by
  simp only [processArgsPass] at h
  split at h
  · split at h
    · cases h
    · cases h
      rfl
  · cases h
    rfl

/-- Decomposition of processSpecKey: the option table is exactly what the
options pass produced, the used-variable set exactly what the env pass
produced. -/
theorem processSpecKey_parts (spec : Spec) (used : KeySet) (k : Key) (r : Spec × KeySet)
    (h : processSpecKey spec used k = .ok r) :
    ∃ (rOpt : Spec × Option Key) (rEnv : KeySet × Option Key),
      processOptions spec k none = .ok rOpt
      ∧ processEnvVars used k rOpt.2 = .ok rEnv
      ∧ r.1.options = rOpt.1.options ∧ r.2 = rEnv.1 := by
  unfold processSpecKey at h
  split at h
  · cases h
  · rename_i spec1 kw hopt
    split at h
    · cases h
    · rename_i used1 kw1 henv
      split at h
      · cases h
      · rename_i spec2 kw2 hargs
        have hopts : spec2.options = spec1.options :=
          processArgsPass_options spec1 k kw1 (spec2, kw2) hargs
        split at h
        · cases h
          exact ⟨(spec1, kw), (used1, kw1), hopt, henv, hopts, rfl⟩
        · cases h
          exact ⟨(spec1, kw), (used1, kw1), hopt, henv, hopts, rfl⟩

/-- Every failure of readOptionData is an illegal-specification error. -/
theorem readOptionData_err (k : Key) (m : Str) (e : ErrKind)
    (h : readOptionData k m = .error e) : e = .illegalSpec := by
  simp only [readOptionData] at h
  split at h
  · cases h
  · split at h
    · cases h
      rfl
    · cases h

/-- Every failure of processShortOptSpec is an illegal-specification error. -/
theorem processShortOptSpec_err (spec : Spec) (od : OptionData) (kw : Option Key)
    (s : Str) (e : ErrKind) (h : processShortOptSpec spec od kw s = .error e) :
    e = .illegalSpec := by
  simp only [processShortOptSpec] at h
  split at h
  · cases h
  · split at h
    · cases h
    · split at h
      · cases h
        rfl
      · split at h
        · cases h
          rfl
        · split at h
          · cases h
            rfl
          · cases h

/-- Every failure of processLongOptSpec is an illegal-specification error. -/
theorem processLongOptSpec_err (spec : Spec) (od : OptionData) (kw : Option Key)
    (l : Str) (e : ErrKind) (h : processLongOptSpec spec od kw l = .error e) :
    e = .illegalSpec := by
  simp only [processLongOptSpec] at h
  split at h
  · cases h
  · split at h
    · cases h
      rfl
    · split at h
      · cases h
        rfl
      · cases h

/-- Every failure of the option-slot loop is an illegal-specification error. -/
theorem processOptionsLoop_err : ∀ (places : List Str) (spec : Spec) (k : Key)
    (kw : Option Key) (s l : Str) (e : ErrKind),
    processOptionsLoop spec k kw s l places = .error e → e = .illegalSpec := by
  intro places
  induction places with
  | nil =>
    intro spec k kw s l e h
    cases h
  | cons m rest ih =>
    intro spec k kw s l e h
    simp only [processOptionsLoop] at h
    split at h
    · rename_i e1 hrd
      cases h
      exact readOptionData_err k m _ hrd
    · rename_i od hrd
      split at h
      · rename_i e1 hs
        cases h
        exact processShortOptSpec_err _ _ _ _ _ hs
      · rename_i spec1 kw1 s1 hs
        split at h
        · rename_i e1 hl
          cases h
          exact processLongOptSpec_err _ _ _ _ _ hl
        · rename_i spec2 kw2 l2 hl
          exact ih _ _ _ _ _ _ h

/-- Every failure of processOptions is an illegal-specification error. -/
theorem processOptions_err (spec : Spec) (k : Key) (kw : Option Key) (e : ErrKind)
    (h : processOptions spec k kw = .error e) : e = .illegalSpec := by
  simp only [processOptions] at h
  split at h
  · cases h
  · split at h
    · rename_i e1 hloop
      cases h
      exact processOptionsLoop_err _ _ _ _ _ _ _ hloop
    · split at h
      · cases h
      · cases h

/-- Every failure of the environment-variable loop is an illegal-specification
error. -/
theorem processEnvVarsLoop_err : ∀ (l : List (Str × Str)) (used : KeySet) (k : Key)
    (kw : Option Key) (e : ErrKind),
    processEnvVarsLoop used k kw l = .error e → e = .illegalSpec := by
  intro l
  induction l with
  | nil =>
    intro used k kw e h
    cases h
  | cons p rest ih =>
    intro used k kw e h
    obtain ⟨a, envVar⟩ := p
    simp only [processEnvVarsLoop] at h
    split at h
    · cases h
      rfl
    · exact ih _ _ _ _ h

/-- Every failure of processEnvVars is an illegal-specification error. -/
theorem processEnvVars_err (used : KeySet) (k : Key) (kw : Option Key) (e : ErrKind)
    (h : processEnvVars used k kw = .error e) : e = .illegalSpec := by
  unfold processEnvVars at h
  split at h
  · cases h
  · exact processEnvVarsLoop_err _ _ _ _ _ h

/-- Every failure of the args pass is an illegal-specification error. -/
theorem processArgsPass_err (spec1 : Spec) (cur : Key) (kw : Option Key) (e : ErrKind)
    (h : processArgsPass spec1 cur kw = .error e) : e = .illegalSpec := by
  simp only [processArgsPass] at h
  split at h
  · split at h
    · cases h
      rfl
    · cases h
  · cases h

/-- Every failure of processSpecKey is an illegal-specification error. -/
theorem processSpecKey_err (spec : Spec) (used : KeySet) (k : Key) (e : ErrKind)
    (h : processSpecKey spec used k = .error e) : e = .illegalSpec := by
  unfold processSpecKey at h
  split at h
  · rename_i e1 hopt
    cases h
    exact processOptions_err _ _ _ _ hopt
  · rename_i spec1 kw hopt
    split at h
    · rename_i e1 henv
      cases h
      exact processEnvVars_err _ _ _ _ henv
    · rename_i used1 kw1 henv
      split at h
      · rename_i e1 hargs
        cases h
        exact processArgsPass_err _ _ _ _ hargs
      · rename_i spec2 kw2 hargs
        split at h
        · cases h
        · cases h

/-- Every failure of the spec-key loop is an illegal-specification error. -/
theorem processSpecLoop_err : ∀ (l : List Key) (spec : Spec) (used : KeySet) (e : ErrKind),
    processSpecLoop spec used l = .error e → e = .illegalSpec := by
  intro l
  induction l with
  | nil =>
    intro spec used e h
    cases h
  | cons cur rest ih =>
    intro spec used e h
    simp only [processSpecLoop] at h
    split at h
    · split at h
      · rename_i e1 hk
        cases h
        exact processSpecKey_err _ _ _ _ hk
      · exact ih _ _ _ h
    · exact ih _ _ _ h

/-- Every failure of the whole spec compiler is an illegal-specification
error. -/
theorem processSpec_err (ks : KeySet) (e : ErrKind) (h : processSpec ks = .error e) :
    e = .illegalSpec := by
  unfold processSpec at h
  exact processSpecLoop_err _ _ _ _ h

/-- Unfolding of the short-binding list over the first spec key. -/
theorem allShortBindings_cons (k : Key) (rest : List Key) :
    allShortBindings (k :: rest)
      = (if k.name.head? = some (str "spec") then (specPlaces k).filterMap (shortAt k) else [])
        ++ allShortBindings rest := by
  simp [allShortBindings]

/-- Unfolding of the long-binding list over the first spec key. -/
theorem allLongBindings_cons (k : Key) (rest : List Key) :
    allLongBindings (k :: rest)
      = (if k.name.head? = some (str "spec") then (specPlaces k).filterMap (longAt k) else [])
        ++ allLongBindings rest := by
  simp [allLongBindings]

/-- Unfolding of the env-binding list over the first spec key. -/
theorem allEnvBindings_cons (k : Key) (rest : List Key) :
    allEnvBindings (k :: rest)
      = (if k.name.head? = some (str "spec") then envNamesOf k else [])
        ++ allEnvBindings rest := by
  simp [allEnvBindings]

/-- processSpecKey only adds entries to the compiled-option table. -/
theorem processSpecKey_opts_mono (spec : Spec) (used : KeySet) (k : Key)
    (r : Spec × KeySet) (h : processSpecKey spec used k = .ok r) (n : List Str)
    (hp : (ksLookupByName spec.options n).isSome = true) :
    (ksLookupByName r.1.options n).isSome = true := by
  obtain ⟨rOpt, rEnv, hopt, henv, hopts, hused⟩ := processSpecKey_parts _ _ _ _ h
  rw [hopts]
  rcases processOptions_parts _ _ _ _ hopt with ⟨hpl, hsp⟩ | ⟨r1, hloop, hsp⟩
  · rw [hsp]
    exact hp
  · rw [hsp]
    exact processOptionsLoop_mono _ _ _ _ _ _ _ _ hloop hp

/-- processSpecKey only adds entries to the used-variable set. -/
theorem processSpecKey_used_mono (spec : Spec) (used : KeySet) (k : Key)
    (r : Spec × KeySet) (h : processSpecKey spec used k = .ok r) (n : List Str)
    (hp : (ksLookupByName used n).isSome = true) :
    (ksLookupByName r.2 n).isSome = true := by
  obtain ⟨rOpt, rEnv, hopt, henv, hopts, hused⟩ := processSpecKey_parts _ _ _ _ h
  rw [hused]
  rcases processEnvVars_parts _ _ _ _ henv with ⟨hnil, hsp⟩ | ⟨envs, hmap, hloop⟩
  · rw [hsp]
    exact hp
  · exact processEnvVarsLoop_mono _ _ _ _ _ _ hloop hp

/-- Every short character bound on a processed spec key ends up in the
compiled-option table. -/
theorem processSpecKey_insert_sh (spec : Spec) (used : KeySet) (k : Key)
    (r : Spec × KeySet) (h : processSpecKey spec used k = .ok r) (m : Str) (c : Char)
    (hm : m ∈ specPlaces k) (hc : shortAt k m = some c) :
    (ksLookupByName r.1.options (shortOptName c)).isSome = true := by
  obtain ⟨rOpt, rEnv, hopt, henv, hopts, hused⟩ := processSpecKey_parts _ _ _ _ h
  rw [hopts]
  rcases processOptions_parts _ _ _ _ hopt with ⟨hpl, hsp⟩ | ⟨r1, hloop, hsp⟩
  · simp [specPlaces, hpl] at hm
  · rw [hsp]
    exact processOptionsLoop_insert_short _ _ _ _ _ _ _ _ _ hloop hm hc

/-- A short character already in the compiled-option table makes
processSpecKey fail on a key binding it again. -/
theorem processSpecKey_conflict_sh (spec : Spec) (used : KeySet) (k : Key)
    (m : Str) (c : Char) (r : Spec × KeySet)
    (hm : m ∈ specPlaces k) (hc : shortAt k m = some c)
    (hp : (ksLookupByName spec.options (shortOptName c)).isSome = true) :
    processSpecKey spec used k ≠ .ok r := by
  intro h
  obtain ⟨rOpt, rEnv, hopt, henv, hopts, hused⟩ := processSpecKey_parts _ _ _ _ h
  rcases processOptions_parts _ _ _ _ hopt with ⟨hpl, hsp⟩ | ⟨r1, hloop, hsp⟩
  · simp [specPlaces, hpl] at hm
  · exact processOptionsLoop_conflict_short _ _ _ _ _ _ _ _ _ hm hc hp hloop

/-- The short characters bound on a single processed spec key are pairwise
distinct. -/
theorem processSpecKey_nodup_sh (spec : Spec) (used : KeySet) (k : Key)
    (r : Spec × KeySet) (h : processSpecKey spec used k = .ok r) :
    ((specPlaces k).filterMap (shortAt k)).Nodup := by
  obtain ⟨rOpt, rEnv, hopt, henv, hopts, hused⟩ := processSpecKey_parts _ _ _ _ h
  rcases processOptions_parts _ _ _ _ hopt with ⟨hpl, hsp⟩ | ⟨r1, hloop, hsp⟩
  · simp [specPlaces, hpl]
  · exact processOptionsLoop_nodup_short _ _ _ _ _ _ _ hloop

/-- Every long name bound on a processed spec key ends up in the
compiled-option table. -/
theorem processSpecKey_insert_lo (spec : Spec) (used : KeySet) (k : Key)
    (r : Spec × KeySet) (h : processSpecKey spec used k = .ok r) (m : Str) (nm : Str)
    (hm : m ∈ specPlaces k) (hc : longAt k m = some nm) :
    (ksLookupByName r.1.options (longOptName nm)).isSome = true := by
  obtain ⟨rOpt, rEnv, hopt, henv, hopts, hused⟩ := processSpecKey_parts _ _ _ _ h
  rw [hopts]
  rcases processOptions_parts _ _ _ _ hopt with ⟨hpl, hsp⟩ | ⟨r1, hloop, hsp⟩
  · simp [specPlaces, hpl] at hm
  · rw [hsp]
    exact processOptionsLoop_insert_long _ _ _ _ _ _ _ _ _ hloop hm hc

/-- A long name already in the compiled-option table makes processSpecKey
fail on a key binding it again. -/
theorem processSpecKey_conflict_lo (spec : Spec) (used : KeySet) (k : Key)
    (m : Str) (nm : Str) (r : Spec × KeySet)
    (hm : m ∈ specPlaces k) (hc : longAt k m = some nm)
    (hp : (ksLookupByName spec.options (longOptName nm)).isSome = true) :
    processSpecKey spec used k ≠ .ok r := by
  intro h
  obtain ⟨rOpt, rEnv, hopt, henv, hopts, hused⟩ := processSpecKey_parts _ _ _ _ h
  rcases processOptions_parts _ _ _ _ hopt with ⟨hpl, hsp⟩ | ⟨r1, hloop, hsp⟩
  · simp [specPlaces, hpl] at hm
  · exact processOptionsLoop_conflict_long _ _ _ _ _ _ _ _ _ hm hc hp hloop

/-- The long names bound on a single processed spec key are pairwise
distinct. -/
theorem processSpecKey_nodup_lo (spec : Spec) (used : KeySet) (k : Key)
    (r : Spec × KeySet) (h : processSpecKey spec used k = .ok r) :
    ((specPlaces k).filterMap (longAt k)).Nodup := by
  obtain ⟨rOpt, rEnv, hopt, henv, hopts, hused⟩ := processSpecKey_parts _ _ _ _ h
  rcases processOptions_parts _ _ _ _ hopt with ⟨hpl, hsp⟩ | ⟨r1, hloop, hsp⟩
  · simp [specPlaces, hpl]
  · exact processOptionsLoop_nodup_long _ _ _ _ _ _ _ hloop

/-- Every environment variable declared on a processed spec key ends up in
the used-variable set. -/
theorem processSpecKey_insert_ev (spec : Spec) (used : KeySet) (k : Key)
    (r : Spec × KeySet) (h : processSpecKey spec used k = .ok r) (e : Str)
    (hm : e ∈ envNamesOf k) :
    (ksLookupByName r.2 [[], e]).isSome = true := by
  obtain ⟨rOpt, rEnv, hopt, henv, hopts, hused⟩ := processSpecKey_parts _ _ _ _ h
  rw [hused]
  rcases processEnvVars_parts _ _ _ _ henv with ⟨hnil, hsp⟩ | ⟨envs, hmap, hloop⟩
  · rw [hnil] at hm
    simp at hm
  · refine processEnvVarsLoop_insert _ _ _ _ _ _ hloop ?_
    rw [← hmap]
    exact hm

/-- An environment variable already in the used-variable set makes
processSpecKey fail on a key declaring it again. -/
theorem processSpecKey_conflict_ev (spec : Spec) (used : KeySet) (k : Key)
    (e : Str) (r : Spec × KeySet)
    (hm : e ∈ envNamesOf k) (hp : (ksLookupByName used [[], e]).isSome = true) :
    processSpecKey spec used k ≠ .ok r := by
  intro h
  obtain ⟨rOpt, rEnv, hopt, henv, hopts, hused⟩ := processSpecKey_parts _ _ _ _ h
  rcases processEnvVars_parts _ _ _ _ henv with ⟨hnil, hsp⟩ | ⟨envs, hmap, hloop⟩
  · rw [hnil] at hm
    simp at hm
  · refine processEnvVarsLoop_conflict _ _ _ _ e _ ?_ hp hloop
    rw [← hmap]
    exact hm

/-- The environment variables declared on a single processed spec key are
pairwise distinct. -/
theorem processSpecKey_nodup_ev (spec : Spec) (used : KeySet) (k : Key)
    (r : Spec × KeySet) (h : processSpecKey spec used k = .ok r) :
    (envNamesOf k).Nodup := by
  obtain ⟨rOpt, rEnv, hopt, henv, hopts, hused⟩ := processSpecKey_parts _ _ _ _ h
  rcases processEnvVars_parts _ _ _ _ henv with ⟨hnil, hsp⟩ | ⟨envs, hmap, hloop⟩
  · rw [hnil]
    simp
  · rw [hmap]
    exact processEnvVarsLoop_nodup _ _ _ _ _ hloop

/-- A short character already in the compiled-option table makes the spec-key
loop fail whenever some remaining key binds it again. -/
theorem processSpecLoop_confl_sh : ∀ (l : List Key) (spec : Spec) (used : KeySet)
    (c : Char) (spec' : Spec),
    c ∈ allShortBindings l →
    (ksLookupByName spec.options (shortOptName c)).isSome = true →
    processSpecLoop spec used l ≠ .ok spec' := by
  intro l
  induction l with
  | nil =>
    intro spec used c spec' hc
    simp [allShortBindings] at hc
  | cons k rest ih =>
    intro spec used c spec' hc hp h
    simp only [processSpecLoop] at h
    split at h
    · rename_i hns
      split at h
      · cases h
      · rename_i spec1 used1 hk
        rw [allShortBindings_cons, if_pos hns, List.mem_append] at hc
        rcases hc with hck | hcr
        · obtain ⟨m, hm, hcm⟩ := List.mem_filterMap.mp hck
          exact processSpecKey_conflict_sh spec used k m c (spec1, used1) hm hcm hp hk
        · exact ih spec1 used1 c spec' hcr (processSpecKey_opts_mono _ _ _ _ hk _ hp) h
    · rename_i hns
      rw [allShortBindings_cons, if_neg hns, List.nil_append] at hc
      exact ih spec used c spec' hc hp h

/-- A long name already in the compiled-option table makes the spec-key loop
fail whenever some remaining key binds it again. -/
theorem processSpecLoop_confl_lo : ∀ (l : List Key) (spec : Spec) (used : KeySet)
    (nm : Str) (spec' : Spec),
    nm ∈ allLongBindings l →
    (ksLookupByName spec.options (longOptName nm)).isSome = true →
    processSpecLoop spec used l ≠ .ok spec' := by
  intro l
  induction l with
  | nil =>
    intro spec used nm spec' hc
    simp [allLongBindings] at hc
  | cons k rest ih =>
    intro spec used nm spec' hc hp h
    simp only [processSpecLoop] at h
    split at h
    · rename_i hns
      split at h
      · cases h
      · rename_i spec1 used1 hk
        rw [allLongBindings_cons, if_pos hns, List.mem_append] at hc
        rcases hc with hck | hcr
        · obtain ⟨m, hm, hcm⟩ := List.mem_filterMap.mp hck
          exact processSpecKey_conflict_lo spec used k m nm (spec1, used1) hm hcm hp hk
        · exact ih spec1 used1 nm spec' hcr (processSpecKey_opts_mono _ _ _ _ hk _ hp) h
    · rename_i hns
      rw [allLongBindings_cons, if_neg hns, List.nil_append] at hc
      exact ih spec used nm spec' hc hp h

/-- An environment variable already in the used-variable set makes the
spec-key loop fail whenever some remaining key declares it again. -/
theorem processSpecLoop_confl_ev : ∀ (l : List Key) (spec : Spec) (used : KeySet)
    (e : Str) (spec' : Spec),
    e ∈ allEnvBindings l →
    (ksLookupByName used [[], e]).isSome = true →
    processSpecLoop spec used l ≠ .ok spec' := by
  intro l
  induction l with
  | nil =>
    intro spec used e spec' hc
    simp [allEnvBindings] at hc
  | cons k rest ih =>
    intro spec used e spec' hc hp h
    simp only [processSpecLoop] at h
    split at h
    · rename_i hns
      split at h
      · cases h
      · rename_i spec1 used1 hk
        rw [allEnvBindings_cons, if_pos hns, List.mem_append] at hc
        rcases hc with hck | hcr
        · exact processSpecKey_conflict_ev spec used k e (spec1, used1) hck hp hk
        · exact ih spec1 used1 e spec' hcr (processSpecKey_used_mono _ _ _ _ hk _ hp) h
    · rename_i hns
      rw [allEnvBindings_cons, if_neg hns, List.nil_append] at hc
      exact ih spec used e spec' hc hp h

/-- A successful spec-key loop implies pairwise-distinct short-option
bindings over the whole specification. -/
theorem processSpecLoop_nodup_sh : ∀ (l : List Key) (spec : Spec) (used : KeySet)
    (spec' : Spec), processSpecLoop spec used l = .ok spec' →
    (allShortBindings l).Nodup := by
  intro l
  induction l with
  | nil =>
    intro spec used spec' _
    simp [allShortBindings]
  | cons k rest ih =>
    intro spec used spec' h
    simp only [processSpecLoop] at h
    rw [allShortBindings_cons]
    split at h
    · rename_i hns
      rw [if_pos hns]
      split at h
      · cases h
      · rename_i spec1 used1 hk
        refine List.Nodup.append (processSpecKey_nodup_sh _ _ _ _ hk) (ih _ _ _ h) ?_
        intro c hck hcr
        obtain ⟨m, hm, hcm⟩ := List.mem_filterMap.mp hck
        exact processSpecLoop_confl_sh rest spec1 used1 c spec' hcr
          (processSpecKey_insert_sh _ _ _ _ hk _ _ hm hcm) h
    · rename_i hns
      rw [if_neg hns, List.nil_append]
      exact ih _ _ _ h

/-- A successful spec-key loop implies pairwise-distinct long-option
bindings over the whole specification. -/
theorem processSpecLoop_nodup_lo : ∀ (l : List Key) (spec : Spec) (used : KeySet)
    (spec' : Spec), processSpecLoop spec used l = .ok spec' →
    (allLongBindings l).Nodup := by
  intro l
  induction l with
  | nil =>
    intro spec used spec' _
    simp [allLongBindings]
  | cons k rest ih =>
    intro spec used spec' h
    simp only [processSpecLoop] at h
    rw [allLongBindings_cons]
    split at h
    · rename_i hns
      rw [if_pos hns]
      split at h
      · cases h
      · rename_i spec1 used1 hk
        refine List.Nodup.append (processSpecKey_nodup_lo _ _ _ _ hk) (ih _ _ _ h) ?_
        intro nm hck hcr
        obtain ⟨m, hm, hcm⟩ := List.mem_filterMap.mp hck
        exact processSpecLoop_confl_lo rest spec1 used1 nm spec' hcr
          (processSpecKey_insert_lo _ _ _ _ hk _ _ hm hcm) h
    · rename_i hns
      rw [if_neg hns, List.nil_append]
      exact ih _ _ _ h

/-- A successful spec-key loop implies pairwise-distinct environment-variable
bindings over the whole specification. -/
theorem processSpecLoop_nodup_ev : ∀ (l : List Key) (spec : Spec) (used : KeySet)
    (spec' : Spec), processSpecLoop spec used l = .ok spec' →
    (allEnvBindings l).Nodup := by
  intro l
  induction l with
  | nil =>
    intro spec used spec' _
    simp [allEnvBindings]
  | cons k rest ih =>
    intro spec used spec' h
    simp only [processSpecLoop] at h
    rw [allEnvBindings_cons]
    split at h
    · rename_i hns
      rw [if_pos hns]
      split at h
      · cases h
      · rename_i spec1 used1 hk
        refine List.Nodup.append (processSpecKey_nodup_ev _ _ _ _ hk) (ih _ _ _ h) ?_
        intro e hck hcr
        exact processSpecLoop_confl_ev rest spec1 used1 e spec' hcr
          (processSpecKey_insert_ev _ _ _ _ hk _ hck) h
    · rename_i hns
      rw [if_neg hns, List.nil_append]
      exact ih _ _ _ h

/-- A specification that compiles has pairwise-distinct short, long and
environment bindings. -/
theorem processSpec_nodups (ks : KeySet) (spec1 : Spec) (h : processSpec ks = .ok spec1) :
    (allShortBindings ks).Nodup ∧ (allLongBindings ks).Nodup
      ∧ (allEnvBindings ks).Nodup := by
  unfold processSpec at h
  exact ⟨processSpecLoop_nodup_sh _ _ _ _ h, processSpecLoop_nodup_lo _ _ _ _ h,
    processSpecLoop_nodup_ev _ _ _ _ h⟩

/-- Claim C5: a specification binding the same short option character, the
same long option name or the same environment variable name at two different
places makes resolve return -1 with an illegal-specification error, for every
argv and envp alike — the rejection happens during specification compilation,
before any argv token is inspected. -/
theorem c5_duplicate_bindings (ks : KeySet)
    (hdup : ¬ (allShortBindings ks).Nodup ∨ ¬ (allLongBindings ks).Nodup
      ∨ ¬ (allEnvBindings ks).Nodup) :
    ∀ (argv envp : List Str) (errorKey : Key),
      elektraGetOpts ks argv envp errorKey = ⟨-1, ks, some .illegalSpec, none, none⟩ := by
  intro argv envp errorKey
  cases hps : processSpec ks with
  | error e =>
    have he : e = .illegalSpec := processSpec_err ks e hps
    unfold elektraGetOpts
    rw [hps, he]
  | ok spec1 =>
    obtain ⟨h1, h2, h3⟩ := processSpec_nodups ks spec1 hps
    rcases hdup with hd | hd | hd
    · exact absurd h1 hd
    · exact absurd h2 hd
    · exact absurd h3 hd

/-- Claim C5 witness: the concrete specification binding `-x` twice is
rejected with the illegal-specification error on a concrete argv. -/
theorem c5_duplicate_bindings_witness :
    (¬ (allShortBindings dupShortSpec).Nodup ∨ ¬ (allLongBindings dupShortSpec).Nodup
      ∨ ¬ (allEnvBindings dupShortSpec).Nodup)
    ∧ elektraGetOpts dupShortSpec [str "prog", str "-x"] [] emptyKey
      = ⟨-1, dupShortSpec, some .illegalSpec, none, none⟩ :=
  ⟨Or.inl (by decide),
    c5_duplicate_bindings dupShortSpec (Or.inl (by decide)) [str "prog", str "-x"] [] emptyKey⟩

/-- addProcKey without an occurrence key reports a skip. -/
theorem addProcKey_none (ks : KeySet) (kw : Key) : addProcKey ks kw none = (1, ks) := rfl

/-- addProcKey on a scalar entry with an unoccupied destination writes the
occurrence value. -/
theorem addProcKey_scalar_fresh (ks : KeySet) (kw : Key) (o : Key)
    (hsc : ¬ (procNameOf kw.name).getLast? = some (str "#"))
    (hl : ksLookupByName ks (procNameOf kw.name) = none) :
    addProcKey ks kw (some o) = (0, ksAppendKey ks ⟨procNameOf kw.name, o.value, []⟩) := by
  simp only [addProcKey]
  rw [if_neg hsc, hl]
  simp [hsc]

/-- addProcKey on a scalar entry with an occupied destination overwrites an
empty value and is blocked by a non-empty one. -/
theorem addProcKey_scalar_found (ks : KeySet) (kw : Key) (o ex : Key)
    (hsc : ¬ (procNameOf kw.name).getLast? = some (str "#"))
    (hl : ksLookupByName ks (procNameOf kw.name) = some ex) :
    addProcKey ks kw (some o)
      = if ex.value = [] then (0, ksAppendKey ks ⟨procNameOf kw.name, o.value, []⟩)
        else (-1, ks) := by
  simp only [addProcKey]
  rw [if_neg hsc, hl]
  by_cases hv : ex.value = []
  · simp [hv, hsc]
  · simp [hv, hsc]

/-- A written occurrence value is reported by every successful completion of
the option-reference loop. -/
theorem writeOVLoop_vf (kw : Key) (options : KeySet) :
    ∀ (refs : List Str) (ks : KeySet) (sf : Bool) (ks1 : KeySet) (vf1 : Bool),
    writeOptionValuesLoop kw options ks sf true refs = (none, ks1, vf1) → vf1 = true := by
  intro refs
  induction refs with
  | nil =>
    intro ks sf ks1 vf1 h
    cases h
    rfl
  | cons optName rest ih =>
    intro ks sf ks1 vf1 h
    simp only [writeOptionValuesLoop] at h
    split at h
    · exact ih _ _ _ _ h
    · split at h
      · exact ih _ _ _ _ h
      · split at h
        · simp at h
        · exact ih _ _ _ _ h

/-- Once a short occurrence owns the destination of a scalar plan entry, the
rest of the option-reference loop keeps its value or replaces it with another
short occurrence's value: long references are skipped and a blocking value
aborts the loop. -/
theorem writeOVLoop_keep (kw : Key) (options : KeySet)
    (hsc : ¬ (procNameOf kw.name).getLast? = some (str "#")) :
    ∀ (refs : List Str) (ks : KeySet) (vf : Bool) (ks1 : KeySet) (vf1 : Bool) (v : Str),
    writeOptionValuesLoop kw options ks true vf refs = (none, ks1, vf1) →
    ksLookupByName ks (procNameOf kw.name) = some ⟨procNameOf kw.name, v, []⟩ →
    ksLookupByName ks1 (procNameOf kw.name) = some ⟨procNameOf kw.name, v, []⟩
    ∨ ∃ s o, s ∈ refs ∧ s.take 6 = str "/short" ∧ ksLookupByStr options s = some o
        ∧ ksLookupByName ks1 (procNameOf kw.name) = some ⟨procNameOf kw.name, o.value, []⟩ := by
  intro refs
  induction refs with
  | nil =>
    intro ks vf ks1 vf1 v h hv
    cases h
    exact Or.inl hv
  | cons optName rest ih =>
    intro ks vf ks1 vf1 v h hv
    simp only [writeOptionValuesLoop] at h
    by_cases hshort : optName.take 6 = str "/short"
    · rw [if_neg (by simp [hshort])] at h
      cases ho : ksLookupByStr options optName with
      | none =>
        rw [ho, addProcKey_none] at h
        split at h
        · rename_i hc
          exact absurd hc (by norm_num)
        · split at h
          · rename_i hc
            exact absurd hc (by norm_num)
          · rcases ih _ _ _ _ _ h hv with hk | ⟨s, o, hs, h6, hoo, hd⟩
            · exact Or.inl hk
            · exact Or.inr ⟨s, o, List.mem_cons_of_mem _ hs, h6, hoo, hd⟩
      | some o =>
        rw [ho, addProcKey_scalar_found ks kw o ⟨procNameOf kw.name, v, []⟩ hsc hv] at h
        by_cases hv0 : v = []
        · rw [if_pos (show Key.value ⟨procNameOf kw.name, v, []⟩ = [] from hv0)] at h
          split at h
          · have hsf : decide (True ∨ optName.take 6 = str "/short") = true :=
              decide_eq_true (Or.inl trivial)
            rw [hsf] at h
            have hd2 : ksLookupByName (ksAppendKey ks ⟨procNameOf kw.name, o.value, []⟩)
                (procNameOf kw.name) = some ⟨procNameOf kw.name, o.value, []⟩ :=
              ksLookupByName_ksAppendKey_self ks ⟨procNameOf kw.name, o.value, []⟩
            rcases ih _ _ _ _ _ h hd2 with hk | ⟨s, o2, hs, h6, hoo, hd⟩
            · exact Or.inr ⟨optName, o, List.mem_cons_self _ _, hshort, ho, hk⟩
            · exact Or.inr ⟨s, o2, List.mem_cons_of_mem _ hs, h6, hoo, hd⟩
          · rename_i hc
            exact absurd rfl hc
        · rw [if_neg (show ¬ Key.value ⟨procNameOf kw.name, v, []⟩ = [] from hv0)] at h
          split at h
          · rename_i hc
            exact absurd hc (by norm_num)
          · split at h
            · simp at h
            · rename_i hc
              exact absurd (show ((-1 : Int), ks).1 < 0 by norm_num) hc
    · rw [if_pos ⟨trivial, hshort⟩] at h
      rcases ih _ _ _ _ _ h hv with hk | ⟨s, o, hs, h6, hoo, hd⟩
      · exact Or.inl hk
      · exact Or.inr ⟨s, o, List.mem_cons_of_mem _ hs, h6, hoo, hd⟩

/-- If some short option reference of a scalar plan entry carries an
occurrence, a successful option-reference loop reports a written value and
leaves a short occurrence's value at the destination, whatever the slot
order. -/
theorem writeOVLoop_short (kw : Key) (options : KeySet)
    (hsc : ¬ (procNameOf kw.name).getLast? = some (str "#")) :
    ∀ (refs : List Str) (ks : KeySet) (sf vf : Bool) (ks1 : KeySet) (vf1 : Bool),
    writeOptionValuesLoop kw options ks sf vf refs = (none, ks1, vf1) →
    (∃ s ∈ refs, s.take 6 = str "/short" ∧ (ksLookupByStr options s).isSome = true) →
    vf1 = true ∧ ∃ s o, s ∈ refs ∧ s.take 6 = str "/short" ∧ ksLookupByStr options s = some o
      ∧ ksLookupByName ks1 (procNameOf kw.name) = some ⟨procNameOf kw.name, o.value, []⟩ := by
  intro refs
  induction refs with
  | nil =>
    intro ks sf vf ks1 vf1 h hex
    simp at hex
  | cons optName rest ih =>
    intro ks sf vf ks1 vf1 h hex
    simp only [writeOptionValuesLoop] at h
    split at h
    · rename_i hcond
      have hex1 : ∃ s ∈ rest, s.take 6 = str "/short"
          ∧ (ksLookupByStr options s).isSome = true := by
        obtain ⟨s, hs, h6, hso⟩ := hex
        cases List.mem_cons.mp hs with
        | inl he => exact absurd (he ▸ h6) hcond.2
        | inr hr => exact ⟨s, hr, h6, hso⟩
      obtain ⟨hvf, s, o, hs, h6, hoo, hd⟩ := ih _ _ _ _ _ h hex1
      exact ⟨hvf, s, o, List.mem_cons_of_mem _ hs, h6, hoo, hd⟩
    · rename_i hcond
      cases ho : ksLookupByStr options optName with
      | none =>
        rw [ho, addProcKey_none] at h
        split at h
        · rename_i hc
          exact absurd hc (by norm_num)
        · split at h
          · rename_i hc
            exact absurd hc (by norm_num)
          · have hex1 : ∃ s ∈ rest, s.take 6 = str "/short"
                ∧ (ksLookupByStr options s).isSome = true := by
              obtain ⟨s, hs, h6, hso⟩ := hex
              cases List.mem_cons.mp hs with
              | inl he =>
                rw [he, ho] at hso
                cases hso
              | inr hr => exact ⟨s, hr, h6, hso⟩
            obtain ⟨hvf, s, o, hs, h6, hoo, hd⟩ := ih _ _ _ _ _ h hex1
            exact ⟨hvf, s, o, List.mem_cons_of_mem _ hs, h6, hoo, hd⟩
      | some o =>
        rw [ho] at h
        by_cases hshort : optName.take 6 = str "/short"
        · have hwrite : ∀ ks2 : KeySet,
              writeOptionValuesLoop kw options ks2
                (decide (sf = true ∨ optName.take 6 = str "/short")) true rest
                = (none, ks1, vf1) →
              ksLookupByName ks2 (procNameOf kw.name)
                = some ⟨procNameOf kw.name, o.value, []⟩ →
              vf1 = true ∧ ∃ s o2, s ∈ optName :: rest ∧ s.take 6 = str "/short"
                ∧ ksLookupByStr options s = some o2
                ∧ ksLookupByName ks1 (procNameOf kw.name)
                  = some ⟨procNameOf kw.name, o2.value, []⟩ := by
            intro ks2 h2 hd2
            have hsf : decide (sf = true ∨ optName.take 6 = str "/short") = true :=
              decide_eq_true (Or.inr hshort)
            rw [hsf] at h2
            refine ⟨writeOVLoop_vf kw options rest _ _ _ _ h2, ?_⟩
            rcases writeOVLoop_keep kw options hsc rest _ _ _ _ _ h2 hd2 with
              hk | ⟨s, o2, hs, h6, hoo, hd⟩
            · exact ⟨optName, o, List.mem_cons_self _ _, hshort, ho, hk⟩
            · exact ⟨s, o2, List.mem_cons_of_mem _ hs, h6, hoo, hd⟩
          cases hlk : ksLookupByName ks (procNameOf kw.name) with
          | none =>
            rw [addProcKey_scalar_fresh ks kw o hsc hlk] at h
            split at h
            · exact hwrite _ h
                (ksLookupByName_ksAppendKey_self ks ⟨procNameOf kw.name, o.value, []⟩)
            · rename_i hc
              exact absurd rfl hc
          | some ex =>
            rw [addProcKey_scalar_found ks kw o ex hsc hlk] at h
            by_cases hv0 : ex.value = []
            · rw [if_pos hv0] at h
              split at h
              · exact hwrite _ h
                  (ksLookupByName_ksAppendKey_self ks ⟨procNameOf kw.name, o.value, []⟩)
              · rename_i hc
                exact absurd rfl hc
            · rw [if_neg hv0] at h
              split at h
              · rename_i hc
                exact absurd hc (by norm_num)
              · split at h
                · simp at h
                · rename_i hc
                  exact absurd (show ((-1 : Int), ks).1 < 0 by norm_num) hc
        · cases hlk : ksLookupByName ks (procNameOf kw.name) with
          | none =>
            rw [addProcKey_scalar_fresh ks kw o hsc hlk] at h
            split at h
            · have hex1 : ∃ s ∈ rest, s.take 6 = str "/short"
                  ∧ (ksLookupByStr options s).isSome = true := by
                obtain ⟨s, hs, h6, hso⟩ := hex
                cases List.mem_cons.mp hs with
                | inl he => exact absurd (he ▸ h6) hshort
                | inr hr => exact ⟨s, hr, h6, hso⟩
              obtain ⟨hvf, s, o2, hs, h6, hoo, hd⟩ := ih _ _ _ _ _ h hex1
              exact ⟨hvf, s, o2, List.mem_cons_of_mem _ hs, h6, hoo, hd⟩
            · rename_i hc
              exact absurd rfl hc
          | some ex =>
            rw [addProcKey_scalar_found ks kw o ex hsc hlk] at h
            by_cases hv0 : ex.value = []
            · rw [if_pos hv0] at h
              split at h
              · have hex1 : ∃ s ∈ rest, s.take 6 = str "/short"
                    ∧ (ksLookupByStr options s).isSome = true := by
                  obtain ⟨s, hs, h6, hso⟩ := hex
                  cases List.mem_cons.mp hs with
                  | inl he => exact absurd (he ▸ h6) hshort
                  | inr hr => exact ⟨s, hr, h6, hso⟩
                obtain ⟨hvf, s, o2, hs, h6, hoo, hd⟩ := ih _ _ _ _ _ h hex1
                exact ⟨hvf, s, o2, List.mem_cons_of_mem _ hs, h6, hoo, hd⟩
              · rename_i hc
                exact absurd rfl hc
            · rw [if_neg hv0] at h
              split at h
              · rename_i hc
                exact absurd hc (by norm_num)
              · split at h
                · simp at h
                · rename_i hc
                  exact absurd (show ((-1 : Int), ks).1 < 0 by norm_num) hc

/-- The option pass of one plan entry: when a short reference carries an
occurrence, the pass reports a written value and the destination holds a
short occurrence's value. -/
theorem writeOptionValues_short (ks : KeySet) (kw : Key) (options : KeySet)
    (ks1 : KeySet) (vf : Bool)
    (hsc : ¬ (procNameOf kw.name).getLast? = some (str "#"))
    (h : writeOptionValues ks kw options = (none, ks1, vf))
    (hex : ∃ s ∈ optRefs kw, s.take 6 = str "/short"
      ∧ (ksLookupByStr options s).isSome = true) :
    vf = true ∧ ∃ s o, s ∈ optRefs kw ∧ s.take 6 = str "/short"
      ∧ ksLookupByStr options s = some o
      ∧ ksLookupByName ks1 (procNameOf kw.name) = some ⟨procNameOf kw.name, o.value, []⟩ := by
  simp only [writeOptionValues] at h
  split at h
  · rename_i hme
    rw [show optRefs kw = [] by simp [optRefs, hme]] at hex
    simp at hex
  · rename_i metas hme
    have hrefs : optRefs kw = metas.map Prod.snd := by simp [optRefs, hme]
    rw [hrefs] at hex ⊢
    exact writeOVLoop_short kw options hsc _ _ _ _ _ _ h hex

/-- Claim C1 (amended): for a scalar plan entry resolved successfully, if any
short option reference carries an occurrence then the destination value comes
from a short occurrence — in any slot order — and the environment and
positional sources contribute nothing. -/
theorem c1_short_precedence_amended (ks : KeySet) (kw : Key)
    (options envValues args : KeySet) (ks1 : KeySet)
    (h : writeKeyStep ks kw options envValues args = (none, ks1))
    (hsc : (procNameOf kw.name).getLast? ≠ some (str "#"))
    (hex : ∃ s ∈ optRefs kw, s.take 6 = str "/short"
      ∧ (ksLookupByStr options s).isSome = true) :
    ∃ s o, s ∈ optRefs kw ∧ s.take 6 = str "/short" ∧ ksLookupByStr options s = some o
      ∧ ks1 = (writeOptionValues ks kw options).2.1
      ∧ ksLookupByName ks1 (procNameOf kw.name) = some ⟨procNameOf kw.name, o.value, []⟩ := by
  rcases hov : writeOptionValues ks kw options with ⟨e, ks2, vf⟩
  unfold writeKeyStep at h
  rw [hov] at h
  cases e with
  | some e0 => simp at h
  | none =>
    cases vf with
    | true =>
      simp at h
      obtain ⟨hvf, s, o, hs, h6, hoo, hd⟩ :=
        writeOptionValues_short ks kw options ks2 true hsc hov hex
      refine ⟨s, o, hs, h6, hoo, ?_, ?_⟩
      · exact h.symm
      · rw [← h]
        exact hd
    | false =>
      obtain ⟨hvf, _⟩ := writeOptionValues_short ks kw options ks2 false hsc hov hex
      cases hvf

/-- Claim C1 counterexample: resolve succeeds and the spec key carries an
environment-variable binding whose variable is set (X=abc), yet the
positional list contributes the proc value — the separator-free env value on
the array key is skipped, so the stated precedence env > positional fails. -/
theorem c1_counterexample :
    (elektraGetOpts envArgsSpec [str "prog", str "y"] [str "X=abc"] emptyKey).ret = 0
    ∧ ksLookupByName (elektraGetOpts envArgsSpec [str "prog", str "y"] [str "X=abc"] emptyKey).ks
        [str "proc", str "files", str "#0"]
      = some ⟨[str "proc", str "files", str "#0"], str "y", []⟩
    ∧ ksLookupByStr (parseEnvp [str "X=abc"]) (str "/X")
      = some ⟨[[], str "X"], str "abc", []⟩ := by
  decide

/-- Claim C1 witness: with the slot order long before short and occurrences
for both, the short occurrence's flag value wins. -/
theorem c1_short_precedence_amended_witness :
    writeKeyStep [] kwShortLong occShortLong [] []
      = (none, [⟨[str "proc", str "verbose"], str "1", []⟩])
    ∧ (procNameOf kwShortLong.name).getLast? ≠ some (str "#")
    ∧ (∃ s ∈ optRefs kwShortLong, s.take 6 = str "/short"
        ∧ (ksLookupByStr occShortLong s).isSome = true)
    ∧ ∃ s o, s ∈ optRefs kwShortLong ∧ s.take 6 = str "/short"
        ∧ ksLookupByStr occShortLong s = some o
        ∧ [⟨[str "proc", str "verbose"], str "1", []⟩]
            = (writeOptionValues [] kwShortLong occShortLong).2.1
        ∧ ksLookupByName [⟨[str "proc", str "verbose"], str "1", []⟩]
            (procNameOf kwShortLong.name)
          = some ⟨procNameOf kwShortLong.name, o.value, []⟩ :=
  ⟨by decide, by decide, by decide,
    c1_short_precedence_amended [] kwShortLong occShortLong [] []
      [⟨[str "proc", str "verbose"], str "1", []⟩] (by decide) (by decide) (by decide)⟩

/-- Claim C2 counterexample: argv contains the token `-h` before any `--`,
but an unknown option `-x` earlier in argv makes the resolver fail with -1,
not return 1 — so a help token before `--` does not by itself guarantee
help mode. -/
theorem c2_counterexample :
    elektraGetOpts [] [str "prog", str "-x", str "-h"] [] emptyKey
      = ⟨-1, [], some .unknownOption, none, none⟩ := by
  decide

/-- Claim C2 witness: help requested via `--help` at a concrete run. -/
theorem c2_help_mode_amended_witness :
    (elektraGetOpts [] [str "prog", str "--help"] [] emptyKey).ret = 1
    ∧ (elektraGetOpts [] [str "prog", str "--help"] [] emptyKey).ks = [] :=
  c2_help_mode_amended.1 [] [str "prog", str "--help"] [] emptyKey
    ⟨[helpShortKey, helpLongKey], [], false, false⟩
    [⟨longOptName (str "help"), str "1", [(str "key", [])]⟩,
      ⟨[[], str "args"], ['#'], []⟩]
    (by decide) (by decide) (Or.inr (by decide))

end Elektra
